import Mathlib

/-!
Verification development for the woozbanlator statement-reconciliation
engine (src/index.ts).  The TypeScript source is shallowly embedded:

* JavaScript numbers are modelled as `Int` (the program only ever compares
  them, tests their sign, and serializes them; dates are spreadsheet day
  serials and amounts are signed monetary values, both handled here on the
  integer fragment of JS numbers).
* The interactive readline subsystem is modelled by an explicit stream of
  user responses (`List String`); each prompt consumes the next element.
  A computation that asks for input when the stream is exhausted is
  `blocked` (the real program would wait forever).  Console printing,
  autocompletion hints and per-prompt input histories affect presentation
  only and are elided.
* The expression-compiler collaborator (`compile` from ./expression-eval)
  is modelled by an explicit evaluation function `ev : String → Int → Int`
  (formula text and the absolute amount to the computed value), and the
  JS `RegExp.test` used for category patterns by `rx : String → String →
  Bool` (pattern source and description to match result).  Both are
  threaded as parameters.
* JS `Set`/`Map` objects are modelled by lists in insertion order, `throw`
  by an explicit `thrown` outcome carrying the state at the throw.
-/

namespace Wooz

/-! ## Decimal serialization of numbers (JS Number.prototype.toString on the
integer fragment).  `transactionId` (src/index.ts line 151) concatenates
`Date.toString() + ':' + Amount.toString() + ':' + Description`. -/

/-- Decimal digit character for a digit value (values above nine do not
occur when called on `n % 10` or on `n < 10`). -/
def digitChar (n : Nat) : Char :=
  ['0', '1', '2', '3', '4', '5', '6', '7', '8', '9'].getD n '9'

/-- Fuel-driven decimal digit expansion, most significant digit first.
The fuel argument makes the recursion structural so the kernel can
evaluate it; `natToChars` supplies enough fuel. -/
def natToCharsCore (fuel : Nat) (n : Nat) : List Char :=
  match fuel with
  | 0 => []
  | fuel + 1 =>
    if n < 10 then [digitChar n]
    else natToCharsCore fuel (n / 10) ++ [digitChar (n % 10)]

/-- Decimal representation of a natural number, as JS prints it. -/
def natToChars (n : Nat) : List Char := natToCharsCore (n + 1) n

/-- Character-list form of the serialization of an integer: optional
leading minus sign, then decimal digits with no leading zeros. -/
def numToChars (n : Int) : List Char :=
  if n < 0 then '-' :: natToChars n.natAbs else natToChars n.natAbs

/-- Serialization of an integer exactly as JS Number.prototype.toString
renders an integral number. -/
def numToString (n : Int) : String := String.mk (numToChars n)

/-- Identity key of a transaction, from its three raw fields
(src/index.ts `transactionId`). -/
def transactionIdOf (date amount : Int) (description : String) : String :=
  numToString date ++ ":" ++ numToString amount ++ ":" ++ description

/-- Value of a digit character (inverse of `digitChar` on digits). -/
def digitVal (c : Char) : Nat :=
  match c with
  | '0' => 0 | '1' => 1 | '2' => 2 | '3' => 3 | '4' => 4
  | '5' => 5 | '6' => 6 | '7' => 7 | '8' => 8 | '9' => 9
  | _ => 0

/-- Decimal value of a most-significant-first digit string. -/
def digitsVal (l : List Char) : Nat := l.foldl (fun acc c => acc * 10 + digitVal c) 0

/-! ## Data model (src/index.ts lines 40-88).  The DATESTRING symbol field
holds the formatted date text used only for console printing; it is
elided.  Compiled regexps are kept in sync with the raw pattern strings by
the source (prepareRegexps, creation, push), so the embedding stores only
the raw strings and applies the match function at use sites. -/

/-- A raw statement transaction. -/
structure Transaction where
  Date : Int
  Amount : Int
  Description : String
deriving DecidableEq, Repr

/-- Derived metadata of an extended transaction. -/
structure Metadata where
  isDebit : Bool
  isIntlTransactionFee : Bool
deriving DecidableEq, Repr

/-- A transaction extended with categorization state. -/
structure ExtendedTransaction where
  Date : Int
  Amount : Int
  Description : String
  Category : String
  Reimbursed : String
  metadata : Metadata
deriving DecidableEq, Repr

/-- A category definition: raw pattern strings plus an optional saved
reimbursement formula. -/
structure CategoryDefinition where
  name : String
  matchStrings : List String
  reimbursementFormula : Option String := none
deriving DecidableEq, Repr

/-- Configuration: the two category namespaces, in insertion order
(JS object iteration order for the string keys used here). -/
structure Config where
  outputFilename : String
  debitCategories : List (String × CategoryDefinition)
  creditCategories : List (String × CategoryDefinition)
deriving DecidableEq, Repr

/-- A row of the Debit sheet: Category, Date, Amount, Reimbursed (value and
formula), Paid (derived), Description (src/index.ts addExtendedDebit).
The cell-level rewrite of the formula variable to an ABS cell reference and
back (write line 172, read line 546) is an invertible serialization of the
formula text and is elided: the row stores the formula text itself. -/
structure DebitRow where
  Category : String
  Date : Int
  Amount : Int
  reimbursedValue : Option Int
  Reimbursed : Option String
  paidValue : Int
  Description : String
deriving DecidableEq, Repr

/-- A row of the Credit sheet: Category, Date, Amount, Description. -/
structure CreditRow where
  Category : String
  Date : Int
  Amount : Int
  Description : String
deriving DecidableEq, Repr

/-- The output workbook: the data rows of the two sheets (the header rows
are constant and elided). -/
structure Workbook where
  debit : List DebitRow
  credit : List CreditRow
deriving DecidableEq, Repr

/-- The session context threaded through the engine (src/index.ts type
Context).  The readline handle and per-prompt histories are presentation
state and are elided. -/
structure Context where
  config : Config
  configChanged : Bool
  workbook : Workbook
  debitsAdded : Nat
  creditsAdded : Nat
  existingTransactions : List String
  dateTransactions : List (Int × List ExtendedTransaction)
  intlTransactionFees : List ExtendedTransaction
deriving DecidableEq, Repr

/-- Argument of addTransaction and categoriseTransaction: a raw statement
transaction or an already-extended one (the TS union
Transaction | ExtendedTransaction, discriminated by metadata presence). -/
inductive TxInput where
  | raw : Transaction → TxInput
  | ext : ExtendedTransaction → TxInput
deriving DecidableEq, Repr

/-- Result of an engine computation: normal completion (value, context,
remaining user input), a JS throw (carrying the state at the throw), or
exhaustion of the modelled user-input stream (the real program would be
waiting on a prompt forever). -/
inductive Outcome (α : Type) where
  | ok : α → Context → List String → Outcome α
  | thrown : String → Context → List String → Outcome α
  | blocked : Outcome α
deriving DecidableEq, Repr

/-! ## Small helpers -/

/-- The fixed fee marker text.  The source tests the description against
the anchored regex matching exactly this text (src/index.ts line 90), so
the test is string equality. -/
def intlTransactionFeeText : String := "INTNL TRANSACTION FEE"

/-- Test of the fee-marker regex on a description. -/
def isIntlFeeDesc (d : String) : Bool := d = intlTransactionFeeText

/-- Identity key of a raw transaction (src/index.ts transactionId). -/
def transactionId (t : Transaction) : String :=
  transactionIdOf t.Date t.Amount t.Description

/-- Identity key of an extended transaction: the source transactionId is
called on both shapes and reads only the three raw fields. -/
def extId (e : ExtendedTransaction) : String :=
  transactionIdOf e.Date e.Amount e.Description

/-- Addition to a JS Set of strings: no-op when the value is present. -/
def setAdd (s : List String) (x : String) : List String :=
  if x ∈ s then s else s ++ [x]

/-- Lookup in a JS object used as a record (property read). -/
def recordGet {α : Type} (m : List (String × α)) (k : String) : Option α :=
  match m with
  | [] => none
  | (k0, v) :: rest => if k0 = k then some v else recordGet rest k

/-- Property write on a JS object: replace in place if the key exists,
otherwise append (insertion order preserved). -/
def recordSet {α : Type} (m : List (String × α)) (k : String) (v : α) : List (String × α) :=
  match m with
  | [] => [(k, v)]
  | (k0, v0) :: rest => if k0 = k then (k0, v) :: rest else (k0, v0) :: recordSet rest k v

/-- In-place mutation of an existing record entry. -/
def recordModify {α : Type} (m : List (String × α)) (k : String) (f : α → α) : List (String × α) :=
  match m with
  | [] => []
  | (k0, v0) :: rest => if k0 = k then (k0, f v0) :: rest else (k0, v0) :: recordModify rest k f

/-- The per-date store (JS Map of Sets): append the transaction to its
date bucket, creating the bucket if needed (src/index.ts addToDateStore). -/
def addToDateStore (transaction : ExtendedTransaction)
    (store : List (Int × List ExtendedTransaction)) : List (Int × List ExtendedTransaction) :=
  match store with
  | [] => [(transaction.Date, [transaction])]
  | (d, l) :: rest =>
    if d = transaction.Date then (d, l ++ [transaction]) :: rest
    else (d, l) :: addToDateStore transaction rest

/-- Map lookup on the per-date store. -/
def dateStoreGet (store : List (Int × List ExtendedTransaction)) (d : Int) :
    Option (List ExtendedTransaction) :=
  match store with
  | [] => none
  | (d0, l) :: rest => if d0 = d then some l else dateStoreGet rest d

/-- Record a transaction in the dedup cache and the per-date store
(src/index.ts cacheTransaction). -/
def cacheTransaction (transaction : ExtendedTransaction) (context : Context) : Context :=
  { context with
    existingTransactions := setAdd context.existingTransactions (extId transaction),
    dateTransactions := addToDateStore transaction context.dateTransactions }

/-- JS spread of [...new Set(l)]: deduplicate keeping first occurrences in
order.  The accumulator keeps the recursion structural. -/
def firstDedupAux (seen : List String) : List String → List String
  | [] => []
  | a :: rest =>
    if a ∈ seen then firstDedupAux seen rest
    else a :: firstDedupAux (seen ++ [a]) rest

/-- Deduplicated list of the related categories shown at the fee prompt. -/
def firstDedup (l : List String) : List String := firstDedupAux [] l

/-- JS truthiness of an optional formula string (undefined and the empty
string are falsy). -/
def formulaTruthy : Option String → Bool
  | none => false
  | some f => f ≠ ""

/-! ## Interactive prompt helpers.  Each readline question consumes the
next element of the user-input stream.  Loops that nest a yes/no
confirmation inside a formula prompt are modelled as a single state
machine over the stream, consuming inputs in exactly the order the source
does. -/

/-- Loop until the user answers y or n (src/index.ts askYesNo). -/
def askYesNo : List String → Option (Bool × List String)
  | [] => none
  | a :: rest =>
    if a = "y" then some (true, rest)
    else if a = "n" then some (false, rest)
    else askYesNo rest

/-- Loop until the user enters an empty line or one of the offered
options (the candidate-selection loops of categoriseTransaction,
src/index.ts lines 386-392 and 418-423). -/
def promptChoice (options : List String) : List String → Option (String × List String)
  | [] => none
  | s :: rest =>
    if s = "" ∨ s ∈ options then some (s, rest)
    else promptChoice options rest

/-- Prompt for a pattern: empty input aborts with no pattern, a pattern
that does not match the description is re-prompted
(src/index.ts getRegexForDescription).  Compilation failure of an invalid
pattern would throw in JS; the match function is total here, restricting
the model to well-formed patterns. -/
def getRegexForDescription (rx : String → String → Bool) (description : String) :
    List String → Option (Option String × List String)
  | [] => none
  | r :: rest =>
    if r = "" then some (none, rest)
    else if rx r description then some (some r, rest)
    else getRegexForDescription rx description rest

/-- State machine of getReimbursementForTransaction (src/index.ts lines
316-331): state none = awaiting a formula (empty aborts), state some f =
awaiting the y/n confirmation of f (y accepts f, n returns to the formula
prompt, anything else re-asks the confirmation). -/
def getReimbursementLoop : Option String → List String → Option (Option String × List String)
  | _, [] => none
  | none, s :: rest =>
    if s = "" then some (none, rest) else getReimbursementLoop (some s) rest
  | some f, s :: rest =>
    if s = "y" then some (some f, rest)
    else if s = "n" then getReimbursementLoop none rest
    else getReimbursementLoop (some f) rest

/-- Prompt for a reimbursement formula with confirm/retry; the computed
value shown at the confirmation affects only the prompt text. -/
def getReimbursementForTransaction (ev : String → Int → Int)
    (transaction : ExtendedTransaction) (inputs : List String) :
    Option (Option String × List String) :=
  getReimbursementLoop none inputs

/-- State machine of validateReimbursementForTransaction (src/index.ts
lines 333-343): confirming = true is the y/n confirmation of the pending
formula f (y accepts f, n falls to the formula prompt, anything else
re-asks); confirming = false is the formula prompt, where empty aborts
and any other text becomes the pending formula to confirm.  Returns the
accepted formula, or none when aborted. -/
def validateReimbursementLoop (confirming : Bool) (f : String) :
    List String → Option (Option String × List String)
  | [] => none
  | s :: rest =>
    if confirming then
      if s = "y" then some (some f, rest)
      else if s = "n" then validateReimbursementLoop false f rest
      else validateReimbursementLoop true f rest
    else
      if s = "" then some (none, rest)
      else validateReimbursementLoop true s rest

/-- Re-confirm a saved formula against this transaction's amount; on
acceptance the accepted formula text is stored on the transaction, on
abort the transaction is returned unchanged. -/
def validateReimbursementForTransaction (ev : String → Int → Int)
    (transaction : ExtendedTransaction) (formula : String) (inputs : List String) :
    Option (ExtendedTransaction × List String) :=
  match validateReimbursementLoop true formula inputs with
  | none => none
  | some (none, rest) => some (transaction, rest)
  | some (some g, rest) => some ({ transaction with Reimbursed := g }, rest)

/-! ## Categorization (src/index.ts categoriseTransaction) -/

/-- Extension of a freshly parsed transaction (src/index.ts lines 351-359). -/
def extOfRaw (t : Transaction) : ExtendedTransaction :=
  { Date := t.Date, Amount := t.Amount, Description := t.Description,
    Category := "", Reimbursed := "",
    metadata := { isDebit := decide (t.Amount < 0),
                  isIntlTransactionFee := isIntlFeeDesc t.Description } }

/-- The sign-appropriate category namespace (src/index.ts line 365). -/
def catsFor (context : Context) (e : ExtendedTransaction) : List (String × CategoryDefinition) :=
  if e.metadata.isDebit then context.config.debitCategories else context.config.creditCategories

/-- Write back the sign-appropriate category namespace (mutation through
the categories alias in the source). -/
def setCatsFor (context : Context) (e : ExtendedTransaction)
    (cats : List (String × CategoryDefinition)) : Context :=
  if e.metadata.isDebit then { context with config := { context.config with debitCategories := cats } }
  else { context with config := { context.config with creditCategories := cats } }

/-- Candidate collection (src/index.ts lines 399-406): for every category
of the namespace in order, for every pattern of the category in order,
push the category name on a pattern match.  A category with several
matching patterns is pushed once per matching pattern. -/
def collectMatches (rx : String → String → Bool)
    (categories : List (String × CategoryDefinition)) (description : String) : List String :=
  categories.flatMap (fun p => (p.2.matchStrings.filter (fun m => rx m description)).map (fun _ => p.1))

/-- Multiple-match narrowing (src/index.ts lines 408-428): with more than
one candidate, loop until the user picks a listed name or escapes with an
empty line; the candidate list is then truncated to that single choice or
to nothing. -/
def resolveMultiMatches (ms : List String) (inputs : List String) :
    Option (List String × List String) :=
  if ms.length > 1 then
    match promptChoice ms inputs with
    | none => none
    | some (input, rest) => some (if input = "" then [] else [input], rest)
  else some (ms, inputs)

/-- Single-match assignment (src/index.ts lines 429-435): assign the
category; when it carries a truthy saved reimbursement formula, run the
confirm loop. -/
def assignCategory (ev : String → Int → Int) (extendedTransaction : ExtendedTransaction)
    (context : Context) (c : String) (inputs : List String) : Outcome ExtendedTransaction :=
  let e2 := { extendedTransaction with Category := c }
  match (recordGet (catsFor context extendedTransaction) c).bind
      (fun cat => cat.reimbursementFormula) with
  | some f =>
    if f = "" then Outcome.ok e2 context inputs
    else
      match validateReimbursementForTransaction ev e2 f inputs with
      | none => Outcome.blocked
      | some (e3, rest) => Outcome.ok e3 context rest
  | none => Outcome.ok e2 context inputs

/-- Zero-match path (src/index.ts lines 436-478): ask for a category name;
create it (with optional pattern and optional formula, possibly saved onto
the new category) when unknown, or offer to extend an existing category
with a new pattern and re-confirm its saved formula. -/
def zeroMatchPath (ev : String → Int → Int) (rx : String → String → Bool)
    (extendedTransaction : ExtendedTransaction) (context : Context)
    (inputs : List String) : Outcome ExtendedTransaction :=
  match inputs with
  | [] => Outcome.blocked
  | catName :: rest =>
    let e2 := { extendedTransaction with Category := catName }
    let categories := catsFor context extendedTransaction
    match recordGet categories catName with
    | none =>
      match getRegexForDescription rx extendedTransaction.Description rest with
      | none => Outcome.blocked
      | some (regex, rest2) =>
        let newDef : CategoryDefinition :=
          { name := catName, matchStrings := regex.toList, reimbursementFormula := none }
        let context2 := setCatsFor { context with configChanged := true } extendedTransaction
          (recordSet categories catName newDef)
        match getReimbursementForTransaction ev e2 rest2 with
        | none => Outcome.blocked
        | some (none, rest3) => Outcome.ok e2 context2 rest3
        | some (some formula, rest3) =>
          let e3 := { e2 with Reimbursed := formula }
          if regex.isSome then
            match askYesNo rest3 with
            | none => Outcome.blocked
            | some (true, rest4) =>
              Outcome.ok e3 (setCatsFor context2 extendedTransaction
                (recordModify (recordSet categories catName newDef) catName
                  (fun cat => { cat with reimbursementFormula := some formula }))) rest4
            | some (false, rest4) => Outcome.ok e3 context2 rest4
          else Outcome.ok e3 context2 rest3
    | some existing =>
      match getRegexForDescription rx extendedTransaction.Description rest with
      | none => Outcome.blocked
      | some (regex, rest2) =>
        let context2 := match regex with
          | some r => setCatsFor { context with configChanged := true } extendedTransaction
            (recordModify categories catName
              (fun cat => { cat with matchStrings := cat.matchStrings ++ [r] }))
          | none => context
        match existing.reimbursementFormula with
        | some f =>
          if f = "" then Outcome.ok e2 context2 rest2
          else
            match validateReimbursementForTransaction ev e2 f rest2 with
            | none => Outcome.blocked
            | some (e3, rest3) => Outcome.ok e3 context2 rest3
        | none => Outcome.ok e2 context2 rest2

/-- The categorization orchestrator for one transaction (src/index.ts
categoriseTransaction).  A freshly parsed fee marker is returned
immediately, uncategorized.  An already-extended argument is the
fee-attachment flush path: it must be an uncategorized fee marker, or the
engine throws; its candidate list is the user's selection among the
categories recorded for the fee's date, when any exist. -/
def categoriseTransaction (ev : String → Int → Int) (rx : String → String → Bool)
    (input : TxInput) (context : Context) (inputs : List String) :
    Outcome ExtendedTransaction :=
  match input with
  | TxInput.raw t =>
    let extendedTransaction := extOfRaw t
    if extendedTransaction.metadata.isIntlTransactionFee then
      Outcome.ok extendedTransaction context inputs
    else
      match resolveMultiMatches
          (collectMatches rx (catsFor context extendedTransaction) t.Description) inputs with
      | none => Outcome.blocked
      | some ([c], rest) => assignCategory ev extendedTransaction context c rest
      | some ([], rest) => zeroMatchPath ev rx extendedTransaction context rest
      | some (_, rest) => Outcome.ok extendedTransaction context rest
  | TxInput.ext e =>
    if ¬ e.metadata.isIntlTransactionFee ∨ e.Category ≠ "" then
      Outcome.thrown
        "Passed extended transaction with category is that is not an internation transaction fee"
        context inputs
    else
      match dateStoreGet context.dateTransactions e.Date with
      | some relatedTransactions =>
        let relatedCategories := firstDedup (relatedTransactions.map (fun t => t.Category))
        match promptChoice relatedCategories inputs with
        | none => Outcome.blocked
        | some (input0, rest) =>
          if input0 = "" then zeroMatchPath ev rx e context rest
          else assignCategory ev e context input0 rest
      | none => zeroMatchPath ev rx e context inputs

/-! ## Writing rows and the run loop (src/index.ts lines 167-236, 482-617) -/

/-- Append a categorized debit to the Debit sheet (src/index.ts
addExtendedDebit).  The reimbursed cell holds the evaluated value and the
formula text (empty transaction formula is falsy and stores neither). -/
def debitRowFor (ev : String → Int → Int) (transaction : ExtendedTransaction) : DebitRow :=
  { Category := transaction.Category, Date := transaction.Date,
    Amount := transaction.Amount,
    reimbursedValue :=
      if transaction.Reimbursed ≠ "" then some (ev transaction.Reimbursed |transaction.Amount|)
      else none,
    Reimbursed := if transaction.Reimbursed ≠ "" then some transaction.Reimbursed else none,
    paidValue := transaction.Amount +
      (if transaction.Reimbursed ≠ "" then some (ev transaction.Reimbursed |transaction.Amount|)
       else none).getD 0,
    Description := transaction.Description }

def addExtendedDebit (ev : String → Int → Int) (transaction : ExtendedTransaction)
    (context : Context) : Context :=
  { context with
    workbook := { context.workbook with
      debit := context.workbook.debit ++ [debitRowFor ev transaction] },
    debitsAdded := context.debitsAdded + 1 }

/-- Append a categorized credit to the Credit sheet (src/index.ts
addExtendedCredit). -/
def creditRowFor (transaction : ExtendedTransaction) : CreditRow :=
  { Category := transaction.Category, Date := transaction.Date,
    Amount := transaction.Amount, Description := transaction.Description }

def addExtendedCredit (transaction : ExtendedTransaction) (context : Context) : Context :=
  { context with
    workbook := { context.workbook with
      credit := context.workbook.credit ++ [creditRowFor transaction] },
    creditsAdded := context.creditsAdded + 1 }

/-- Categorize one incoming transaction and dispose of the result
(src/index.ts addTransaction): a transaction that just became a fee marker
is withheld; everything else is written to its sheet and recorded in the
dedup cache and date store. -/
def addTransaction (ev : String → Int → Int) (rx : String → String → Bool)
    (input : TxInput) (context : Context) (inputs : List String) : Outcome Unit :=
  match categoriseTransaction ev rx input context inputs with
  | Outcome.blocked => Outcome.blocked
  | Outcome.thrown m c i => Outcome.thrown m c i
  | Outcome.ok extendedTransaction context1 rest =>
    let inputFee : Bool := match input with
      | TxInput.raw _ => false
      | TxInput.ext e => e.metadata.isIntlTransactionFee
    if !inputFee && extendedTransaction.metadata.isIntlTransactionFee then
      Outcome.ok ()
        { context1 with
          intlTransactionFees := context1.intlTransactionFees ++ [extendedTransaction] } rest
    else
      let context2 := if extendedTransaction.metadata.isDebit
        then addExtendedDebit ev extendedTransaction context1
        else addExtendedCredit extendedTransaction context1
      Outcome.ok () (cacheTransaction extendedTransaction context2) rest

/-- Rebuild an extended transaction from a persisted Debit row
(src/index.ts lines 541-552): the reimbursed formula cell is read back,
isIntlTransactionFee is hardcoded false. -/
def debitRowToTransaction (row : DebitRow) : ExtendedTransaction :=
  { Date := row.Date, Amount := row.Amount, Description := row.Description,
    Category := row.Category, Reimbursed := row.Reimbursed.getD "",
    metadata := { isDebit := decide (row.Amount < 0), isIntlTransactionFee := false } }

/-- Rebuild an extended transaction from a persisted Credit row
(src/index.ts lines 552-563). -/
def creditRowToTransaction (row : CreditRow) : ExtendedTransaction :=
  { Date := row.Date, Amount := row.Amount, Description := row.Description,
    Category := row.Category, Reimbursed := "",
    metadata := { isDebit := decide (row.Amount < 0), isIntlTransactionFee := false } }

/-- Build the cache of existing ledger entries (src/index.ts lines
535-566): every persisted row of the Debit sheet then the Credit sheet is
rebuilt and recorded via cacheTransaction. -/
def loadExistingTransactions (workbook : Workbook) (context : Context) : Context :=
  let c1 := workbook.debit.foldl
    (fun ctx row => cacheTransaction (debitRowToTransaction row) ctx) context
  workbook.credit.foldl
    (fun ctx row => cacheTransaction (creditRowToTransaction row) ctx) c1

/-- Stable insertion of a transaction into a date-sorted list, before the
first strictly later date. -/
def insertByDate (t : Transaction) : List Transaction → List Transaction
  | [] => [t]
  | u :: us => if u.Date < t.Date then u :: insertByDate t us else t :: u :: us

/-- The date-ascending sort of a parsed sheet (src/index.ts lines
584-591).  The JS comparator orders solely by Date and Array.sort is
stable, which determines the result uniquely; this stable insertion sort
computes the same list. -/
def sortByDate : List Transaction → List Transaction
  | [] => []
  | t :: ts => insertByDate t (sortByDate ts)

/-- JS falsiness of the currentDate variable: undefined before the first
file, and the number 0 is also falsy. -/
def currentDateFalsy : Option Int → Bool
  | none => true
  | some d => d = 0

/-- The date-boundary test transaction.Date !== currentDate (a number is
never strictly equal to undefined). -/
def dateDiffers (d : Int) : Option Int → Bool
  | none => true
  | some c => d ≠ c

/-- Flush the withheld fees through addTransaction in insertion order
(src/index.ts lines 598-602). -/
def flushFees (ev : String → Int → Int) (rx : String → String → Bool) :
    List ExtendedTransaction → Context → List String → Outcome Unit
  | [], context, inputs => Outcome.ok () context inputs
  | fee :: fees, context, inputs =>
    match addTransaction ev rx (TxInput.ext fee) context inputs with
    | Outcome.ok () c2 rest => flushFees ev rx fees c2 rest
    | Outcome.thrown m c i => Outcome.thrown m c i
    | Outcome.blocked => Outcome.blocked

/-- One iteration of the main transaction loop (src/index.ts lines
595-609): on a date change, flush and clear any withheld fees and track
the new date; then skip the transaction when its identity key is cached,
otherwise add it. -/
def processStep (ev : String → Int → Int) (rx : String → String → Bool)
    (transaction : Transaction) (currentDate : Option Int) (context : Context)
    (inputs : List String) : Outcome (Option Int) :=
  match (if dateDiffers transaction.Date currentDate then
           if context.intlTransactionFees.isEmpty then
             Outcome.ok (some transaction.Date) context inputs
           else
             match flushFees ev rx context.intlTransactionFees context inputs with
             | Outcome.ok () c2 rest =>
               Outcome.ok (some transaction.Date) { c2 with intlTransactionFees := [] } rest
             | Outcome.thrown m c i => Outcome.thrown m c i
             | Outcome.blocked => Outcome.blocked
         else Outcome.ok currentDate context inputs : Outcome (Option Int)) with
  | Outcome.blocked => Outcome.blocked
  | Outcome.thrown m c i => Outcome.thrown m c i
  | Outcome.ok cd2 context2 rest =>
    if transactionId transaction ∈ context2.existingTransactions then
      Outcome.ok cd2 context2 rest
    else
      match addTransaction ev rx (TxInput.raw transaction) context2 rest with
      | Outcome.ok () c3 rest2 => Outcome.ok cd2 c3 rest2
      | Outcome.thrown m c i => Outcome.thrown m c i
      | Outcome.blocked => Outcome.blocked

/-- The main transaction loop over one sorted sheet. -/
def processTransactions (ev : String → Int → Int) (rx : String → String → Bool) :
    List Transaction → Option Int → Context → List String → Outcome (Option Int)
  | [], cd, context, inputs => Outcome.ok cd context inputs
  | t :: ts, cd, context, inputs =>
    match processStep ev rx t cd context inputs with
    | Outcome.ok cd2 c2 rest => processTransactions ev rx ts cd2 c2 rest
    | Outcome.thrown m c i => Outcome.thrown m c i
    | Outcome.blocked => Outcome.blocked

/-- Process one input file (src/index.ts lines 570-610): sort its rows by
date; when currentDate is still falsy it is seeded from the first sorted
row — reading that row of an empty sheet throws in JS. -/
def processFile (ev : String → Int → Int) (rx : String → String → Bool)
    (file : List Transaction) (cd : Option Int) (context : Context)
    (inputs : List String) : Outcome (Option Int) :=
  let sheetData := sortByDate file
  match (if currentDateFalsy cd then
           match sheetData with
           | [] => Outcome.thrown "TypeError: sheetData[0] is undefined" context inputs
           | t0 :: _ => Outcome.ok (some t0.Date) context inputs
         else Outcome.ok cd context inputs : Outcome (Option Int)) with
  | Outcome.ok cd0 c0 rest => processTransactions ev rx sheetData cd0 c0 rest
  | Outcome.thrown m c i => Outcome.thrown m c i
  | Outcome.blocked => Outcome.blocked

/-- Process every input file in order, threading currentDate across
files. -/
def processFiles (ev : String → Int → Int) (rx : String → String → Bool) :
    List (List Transaction) → Option Int → Context → List String → Outcome (Option Int)
  | [], cd, context, inputs => Outcome.ok cd context inputs
  | f :: fs, cd, context, inputs =>
    match processFile ev rx f cd context inputs with
    | Outcome.ok cd2 c2 rest => processFiles ev rx fs cd2 c2 rest
    | Outcome.thrown m c i => Outcome.thrown m c i
    | Outcome.blocked => Outcome.blocked

/-- The fresh session context (src/index.ts lines 523-533). -/
def initialContext (config : Config) (workbook : Workbook) : Context :=
  { config := config, configChanged := false, workbook := workbook,
    debitsAdded := 0, creditsAdded := 0, existingTransactions := [],
    dateTransactions := [], intlTransactionFees := [] }

/-- One engine run (src/index.ts run), starting after the process-level
plumbing: the configuration is loaded (with both category namespaces
present), the output workbook read or freshly created, and the statement
files parsed into raw rows.  The final persistence of the workbook and of
a changed configuration is external I/O; the returned context carries
both.  Note that the loop ends without flushing fees withheld for the
final date. -/
def run (ev : String → Int → Int) (rx : String → String → Bool) (config : Config)
    (outputWorkbook : Workbook) (files : List (List Transaction))
    (inputs : List String) : Outcome Unit :=
  let context := loadExistingTransactions outputWorkbook (initialContext config outputWorkbook)
  match processFiles ev rx files none context inputs with
  | Outcome.ok _ c rest => Outcome.ok () c rest
  | Outcome.thrown m c i => Outcome.thrown m c i
  | Outcome.blocked => Outcome.blocked

/-! ## Derived notions used by the statements -/

/-- Identity key of a persisted Debit row, as the cache-building loop
computes it after rebuilding the transaction. -/
def debitRowId (r : DebitRow) : String := transactionIdOf r.Date r.Amount r.Description

/-- Identity key of a persisted Credit row. -/
def creditRowId (r : CreditRow) : String := transactionIdOf r.Date r.Amount r.Description

/-- All identity keys of the rows of a workbook, Debit sheet first. -/
def rowIds (wb : Workbook) : List String :=
  wb.debit.map debitRowId ++ wb.credit.map creditRowId

/-- The base extended transaction an input denotes before any
categorization: a raw transaction is extended, an extended one is taken
as is. -/
def extBase (input : TxInput) : ExtendedTransaction :=
  match input with
  | TxInput.raw t => extOfRaw t
  | TxInput.ext e => e

/-- Equality of everything in a context except the category registry and
its dirty flag (categorization touches at most those two fields). -/
def sameEngineState (a b : Context) : Prop :=
  a.workbook = b.workbook ∧ a.existingTransactions = b.existingTransactions ∧
  a.dateTransactions = b.dateTransactions ∧ a.intlTransactionFees = b.intlTransactionFees ∧
  a.debitsAdded = b.debitsAdded ∧ a.creditsAdded = b.creditsAdded

/-- One workbook extends another by appended rows on each sheet. -/
def workbookExtends (a b : Workbook) : Prop :=
  ∃ d c, b.debit = a.debit ++ d ∧ b.credit = a.credit ++ c

/-- The dedup cache holds exactly the identity keys of the workbook rows
(as a set). -/
def idsOk (ctx : Context) : Prop :=
  ∀ x, x ∈ ctx.existingTransactions ↔ x ∈ rowIds ctx.workbook

/-- Every withheld fee is an uncategorized fee marker (the shape in which
addTransaction withholds them). -/
def feesOK (ctx : Context) : Prop :=
  ∀ f ∈ ctx.intlTransactionFees,
    f.metadata.isIntlTransactionFee = true ∧ f.Category = "" ∧
    f.Description = intlTransactionFeeText

/-- Identity keys of the rows of the two sheets whose description is not
the fee marker text. -/
def nonFeeIds (D : List DebitRow) (C : List CreditRow) : List String :=
  (D.filter (fun r => r.Description ≠ intlTransactionFeeText)).map debitRowId ++
  (C.filter (fun r => r.Description ≠ intlTransactionFeeText)).map creditRowId

/-! ## Concrete fixtures used by witnesses and counterexamples -/

/-- An evaluation function for the expression collaborator: the formula
value is the amount itself. -/
def evK : String → Int → Int := fun _ a => a

/-- A pattern semantics where no pattern matches. -/
def rxNone : String → String → Bool := fun _ _ => false

/-- A pattern semantics where every pattern matches every description, as
the empty JS pattern does. -/
def rxAll : String → String → Bool := fun _ _ => true

/-- A pattern semantics where a pattern matches exactly its own text, as
a fully anchored literal JS pattern does. -/
def rxEqv : String → String → Bool := fun p d => p = d

/-- A configuration with no categories. -/
def emptyConfig : Config :=
  { outputFilename := "out.xlsx", debitCategories := [], creditCategories := [] }

/-- A fresh output workbook. -/
def emptyWorkbook : Workbook := { debit := [], credit := [] }

/-- A fee-marker debit transaction. -/
def feeTx : Transaction := { Date := 1, Amount := -3, Description := intlTransactionFeeText }

/-- An ordinary debit transaction on a later date. -/
def plainTx : Transaction := { Date := 2, Amount := -6, Description := "BETA" }

/-- An ordinary debit transaction on day one. -/
def alphaTx : Transaction := { Date := 1, Amount := -5, Description := "ALPHA" }

/-- A configuration whose single debit category has two patterns, both of
which match every description (the empty JS pattern). -/
def twoPatConfig : Config :=
  { outputFilename := "out.xlsx",
    debitCategories := [("c", { name := "c", matchStrings := ["", ""] })],
    creditCategories := [] }

/-- A configuration whose single debit category has one literal pattern. -/
def onePatConfig : Config :=
  { outputFilename := "out.xlsx",
    debitCategories := [("d", { name := "d", matchStrings := ["ALPHA"] })],
    creditCategories := [] }

/-- An already-categorized same-day transaction. -/
def travelExt : ExtendedTransaction :=
  { Date := 1, Amount := -20, Description := "HOTEL", Category := "Travel",
    Reimbursed := "",
    metadata := { isDebit := true, isIntlTransactionFee := false } }

/-- The withheld extension of the fee transaction. -/
def feeExt : ExtendedTransaction := extOfRaw feeTx

/-- The fresh session context over the empty configuration and workbook. -/
def emptyContext : Context := initialContext emptyConfig emptyWorkbook

/-- A session context whose date store already records one categorized
transaction on day one. -/
def day1Context : Context := { emptyContext with dateTransactions := [(1, [travelExt])] }

/-- The final context of a completed run (total projection). -/
def okCtx (o : Outcome Unit) : Context :=
  match o with
  | Outcome.ok _ c _ => c
  | Outcome.thrown _ c _ => c
  | Outcome.blocked => emptyContext

/-- The unconsumed user input of a completed run (total projection). -/
def okRest (o : Outcome Unit) : List String :=
  match o with
  | Outcome.ok _ _ r => r
  | Outcome.thrown _ _ r => r
  | Outcome.blocked => []

/-- Relation between a first run's evolving state (s1) and a second run's
(s2), relative to the identity keys W of the first run's final workbook:
the second run's dedup cache holds exactly W, and every fee withheld by
the second run is unwritten in W and has a withheld counterpart with the
same identity key in the first run's state. -/
def simInv (W : List String) (s1 s2 : Context) : Prop :=
  (∀ x, x ∈ s2.existingTransactions ↔ x ∈ W) ∧
  (∀ f ∈ s2.intlTransactionFees,
    extId f ∉ W ∧ ∃ g ∈ s1.intlTransactionFees, extId g = extId f)

/-- Everything of the second run's context except the withheld-fee set is
unchanged by a step. -/
def run2Preserved (a b : Context) : Prop :=
  b.workbook = a.workbook ∧ b.existingTransactions = a.existingTransactions ∧
  b.debitsAdded = a.debitsAdded ∧ b.creditsAdded = a.creditsAdded ∧
  b.config = a.config ∧ b.configChanged = a.configChanged ∧
  b.dateTransactions = a.dateTransactions

/-- The rows a computation appended to a workbook, with the guarantee the
claims need: among the appended rows whose description is not the fee
marker, identity keys are pairwise distinct and absent from the starting
workbook. -/
def addedOK (wb wb2 : Workbook) : Prop :=
  ∃ D C, wb2.debit = wb.debit ++ D ∧ wb2.credit = wb.credit ++ C ∧
    (nonFeeIds D C).Nodup ∧ (∀ x ∈ nonFeeIds D C, x ∉ rowIds wb)

/-! # Theorems

Properties of the embedded engine, leading up to the claim theorems.

## Properties of the identity-key serialization -/

theorem digitVal_digitChar {n : Nat} (h : n < 10) : digitVal (digitChar n) = n := by
  interval_cases n <;> rfl

theorem digitChar_ne_colon (n : Nat) : digitChar n ≠ ':' := by
  by_cases h : n < 10
  · interval_cases n <;> decide
  · unfold digitChar
    rw [List.getD_eq_default]
    · decide
    · simpa using Nat.le_of_not_lt h

theorem digitChar_ne_minus (n : Nat) : digitChar n ≠ '-' := by
  by_cases h : n < 10
  · interval_cases n <;> decide
  · unfold digitChar
    rw [List.getD_eq_default]
    · decide
    · simpa using Nat.le_of_not_lt h

theorem digitsVal_append (l : List Char) (c : Char) :
    digitsVal (l ++ [c]) = digitsVal l * 10 + digitVal c := by
  simp [digitsVal, List.foldl_append]

theorem digitsVal_natToCharsCore : ∀ (fuel n : Nat), n < fuel →
    digitsVal (natToCharsCore fuel n) = n := by
  intro fuel
  induction fuel with
  | zero => intro n h; omega
  | succ f ih =>
    intro n h
    unfold natToCharsCore
    by_cases h10 : n < 10
    · simp only [h10, if_true]
      simp [digitsVal, digitVal_digitChar h10]
    · simp only [h10, if_false]
      have hdiv : n / 10 < f := by omega
      rw [digitsVal_append, ih (n / 10) hdiv, digitVal_digitChar (Nat.mod_lt n (by omega))]
      omega

theorem digitsVal_natToChars (n : Nat) : digitsVal (natToChars n) = n :=
  digitsVal_natToCharsCore (n + 1) n (Nat.lt_succ_self n)

theorem natToChars_injective : Function.Injective natToChars := by
  intro a b h
  have := digitsVal_natToChars a
  rw [h, digitsVal_natToChars] at this
  omega

theorem colon_not_mem_natToCharsCore (fuel n : Nat) :
    ':' ∉ natToCharsCore fuel n := by
  induction fuel generalizing n with
  | zero => simp [natToCharsCore]
  | succ f ih =>
    unfold natToCharsCore
    by_cases h10 : n < 10
    · simp only [h10, if_true, List.mem_singleton]
      exact fun h => (digitChar_ne_colon n h.symm).elim
    · simp only [h10, if_false, List.mem_append, List.mem_singleton]
      rintro (h | h)
      · exact ih (n / 10) h
      · exact digitChar_ne_colon (n % 10) h.symm

theorem natToCharsCore_ne_nil (fuel n : Nat) (h : 0 < fuel) :
    natToCharsCore fuel n ≠ [] := by
  cases fuel with
  | zero => omega
  | succ f =>
    unfold natToCharsCore
    by_cases h10 : n < 10 <;> simp [h10]

theorem head_natToCharsCore_ne_minus (fuel n : Nat) (c : Char) (l : List Char)
    (h : natToCharsCore fuel n = c :: l) : c ≠ '-' := by
  induction fuel generalizing n c l with
  | zero => simp [natToCharsCore] at h
  | succ f ih =>
    unfold natToCharsCore at h
    by_cases h10 : n < 10
    · simp only [h10, if_true] at h
      cases h
      exact digitChar_ne_minus n
    · simp only [h10, if_false] at h
      cases hrec : natToCharsCore f (n / 10) with
      | nil =>
        rw [hrec] at h
        simp only [List.nil_append, List.cons.injEq] at h
        exact h.1 ▸ digitChar_ne_minus (n % 10)
      | cons c0 l0 =>
        rw [hrec] at h
        simp only [List.cons_append, List.cons.injEq] at h
        exact h.1 ▸ ih (n / 10) c0 l0 hrec

theorem natToChars_ne_nil (n : Nat) : natToChars n ≠ [] :=
  natToCharsCore_ne_nil (n + 1) n (Nat.succ_pos n)

theorem colon_not_mem_natToChars (n : Nat) : ':' ∉ natToChars n :=
  colon_not_mem_natToCharsCore (n + 1) n

theorem colon_not_mem_numToChars (n : Int) : ':' ∉ numToChars n := by
  unfold numToChars
  by_cases h : n < 0
  · simp only [h, if_true, List.mem_cons]
    rintro (h1 | h1)
    · exact absurd h1.symm (by decide)
    · exact colon_not_mem_natToChars n.natAbs h1
  · simp only [h, if_false]
    exact colon_not_mem_natToChars n.natAbs

theorem numToChars_injective : Function.Injective numToChars := by
  intro a b h
  unfold numToChars at h
  by_cases ha : a < 0 <;> by_cases hb : b < 0
  · simp only [ha, hb, if_true, List.cons.injEq] at h
    have := natToChars_injective h.2
    omega
  · simp only [ha, hb, if_true, if_false] at h
    obtain ⟨c, l, hcl⟩ := List.exists_cons_of_ne_nil (natToChars_ne_nil b.natAbs)
    rw [hcl] at h
    exact absurd (List.cons.inj h).1.symm (head_natToCharsCore_ne_minus _ _ c l hcl)
  · simp only [ha, hb, if_true, if_false] at h
    obtain ⟨c, l, hcl⟩ := List.exists_cons_of_ne_nil (natToChars_ne_nil a.natAbs)
    rw [hcl] at h
    exact absurd (List.cons.inj h.symm).1.symm (head_natToCharsCore_ne_minus _ _ c l hcl)
  · simp only [ha, hb, if_false] at h
    have := natToChars_injective h
    omega

/-- Splitting at the first colon: two decompositions of the same character
list around a colon, each with a colon-free head, coincide. -/
theorem colon_split : ∀ (a : List Char) (b : List Char) (t u : List Char),
    ':' ∉ a → ':' ∉ b → a ++ ':' :: t = b ++ ':' :: u → a = b ∧ t = u := by
  intro a
  induction a with
  | nil =>
    intro b t u _ hb h
    cases b with
    | nil => simpa using h
    | cons c bs =>
      simp only [List.nil_append, List.cons_append, List.cons.injEq] at h
      exact absurd (h.1 ▸ List.mem_cons_self c bs) hb
  | cons c as ih =>
    intro b t u ha hb h
    cases b with
    | nil =>
      simp only [List.cons_append, List.nil_append, List.cons.injEq] at h
      exact absurd (h.1 ▸ List.mem_cons_self c as) ha
    | cons d bs =>
      simp only [List.cons_append, List.cons.injEq] at h
      obtain ⟨rfl, h2⟩ := h
      have := ih bs t u (fun hm => ha (List.mem_cons_of_mem _ hm))
        (fun hm => hb (List.mem_cons_of_mem _ hm)) h2
      exact ⟨by rw [this.1], this.2⟩

theorem transactionIdOf_data (date amount : Int) (description : String) :
    (transactionIdOf date amount description).data =
      numToChars date ++ ':' :: (numToChars amount ++ ':' :: description.data) := by
  simp [transactionIdOf, numToString, String.data_append]

/-- The identity key determines the three raw fields and conversely:
distinct (date, amount, description) triples never produce equal keys. -/
theorem transactionIdOf_inj (d1 a1 : Int) (s1 : String) (d2 a2 : Int) (s2 : String) :
    transactionIdOf d1 a1 s1 = transactionIdOf d2 a2 s2 ↔
      (d1 = d2 ∧ a1 = a2 ∧ s1 = s2) := by
  constructor
  · intro h
    have hd : (transactionIdOf d1 a1 s1).data = (transactionIdOf d2 a2 s2).data := by rw [h]
    rw [transactionIdOf_data, transactionIdOf_data] at hd
    obtain ⟨h1, h2⟩ := colon_split _ _ _ _ (colon_not_mem_numToChars d1)
      (colon_not_mem_numToChars d2) hd
    obtain ⟨h3, h4⟩ := colon_split _ _ _ _ (colon_not_mem_numToChars a1)
      (colon_not_mem_numToChars a2) h2
    exact ⟨numToChars_injective h1, numToChars_injective h3, String.ext h4⟩
  · rintro ⟨rfl, rfl, rfl⟩
    rfl


/-! ## Engine state preservation lemmas -/

theorem sameEngineState_refl (ctx : Context) : sameEngineState ctx ctx :=
  ⟨rfl, rfl, rfl, rfl, rfl, rfl⟩

theorem sameEngineState_trans {a b c : Context}
    (h1 : sameEngineState a b) (h2 : sameEngineState b c) : sameEngineState a c := by
  obtain ⟨x1, x2, x3, x4, x5, x6⟩ := h1
  obtain ⟨y1, y2, y3, y4, y5, y6⟩ := h2
  exact ⟨x1.trans y1, x2.trans y2, x3.trans y3, x4.trans y4, x5.trans y5, x6.trans y6⟩

theorem sameEngineState_setCatsFor (ctx : Context) (e : ExtendedTransaction)
    (cats : List (String × CategoryDefinition)) :
    sameEngineState (setCatsFor ctx e cats) ctx := by
  unfold setCatsFor
  split <;> exact ⟨rfl, rfl, rfl, rfl, rfl, rfl⟩

theorem sameEngineState_configChanged (ctx : Context) :
    sameEngineState { ctx with configChanged := true } ctx :=
  ⟨rfl, rfl, rfl, rfl, rfl, rfl⟩

theorem setAdd_mem (l : List String) (a x : String) :
    x ∈ setAdd l a ↔ x ∈ l ∨ x = a := by
  unfold setAdd
  split
  · rename_i hmem
    constructor
    · exact Or.inl
    · rintro (h | rfl)
      · exact h
      · exact hmem
  · simp [List.mem_append]

theorem validateReimbursement_fields (ev : String → Int → Int)
    (tx : ExtendedTransaction) (f : String) (inputs : List String)
    (tx2 : ExtendedTransaction) (rest : List String)
    (h : validateReimbursementForTransaction ev tx f inputs = some (tx2, rest)) :
    tx2.Date = tx.Date ∧ tx2.Amount = tx.Amount ∧ tx2.Description = tx.Description ∧
    tx2.Category = tx.Category ∧ tx2.metadata = tx.metadata := by
  unfold validateReimbursementForTransaction at h
  split at h
  · exact absurd h (by simp)
  · simp only [Option.some.injEq, Prod.mk.injEq] at h
    obtain ⟨h1, -⟩ := h
    subst h1
    exact ⟨rfl, rfl, rfl, rfl, rfl⟩
  · simp only [Option.some.injEq, Prod.mk.injEq] at h
    obtain ⟨h1, -⟩ := h
    subst h1
    exact ⟨rfl, rfl, rfl, rfl, rfl⟩

theorem assignCategory_ok (ev : String → Int → Int) (e0 : ExtendedTransaction)
    (ctx : Context) (c : String) (inputs : List String)
    (e2 : ExtendedTransaction) (ctx2 : Context) (rest : List String)
    (h : assignCategory ev e0 ctx c inputs = Outcome.ok e2 ctx2 rest) :
    ctx2 = ctx ∧ e2.Date = e0.Date ∧ e2.Amount = e0.Amount ∧
    e2.Description = e0.Description ∧ e2.metadata = e0.metadata ∧ e2.Category = c := by
  unfold assignCategory at h
  dsimp only [] at h
  cases hf : (recordGet (catsFor ctx e0) c).bind (fun cat => cat.reimbursementFormula) with
  | none =>
    rw [hf] at h
    dsimp only [] at h
    cases h
    exact ⟨rfl, rfl, rfl, rfl, rfl, rfl⟩
  | some f =>
    rw [hf] at h
    dsimp only [] at h
    by_cases hfe : f = ""
    · rw [if_pos hfe] at h
      cases h
      exact ⟨rfl, rfl, rfl, rfl, rfl, rfl⟩
    · rw [if_neg hfe] at h
      cases hv : validateReimbursementForTransaction ev { e0 with Category := c } f inputs with
      | none =>
        rw [hv] at h
        exact Outcome.noConfusion h
      | some p =>
        obtain ⟨e3, r3⟩ := p
        rw [hv] at h
        cases h
        have hfields := validateReimbursement_fields _ _ _ _ _ _ hv
        exact ⟨rfl, hfields.1, hfields.2.1, hfields.2.2.1, hfields.2.2.2.2, hfields.2.2.2.1⟩

theorem sameEngineState_dirtyCats (ctx : Context) (e : ExtendedTransaction)
    (cats : List (String × CategoryDefinition)) :
    sameEngineState (setCatsFor { ctx with configChanged := true } e cats) ctx :=
  sameEngineState_trans (sameEngineState_setCatsFor _ e cats) (sameEngineState_configChanged ctx)

theorem sameEngineState_optionMutate (ctx : Context) (e : ExtendedTransaction)
    (o : Option String) (k : String) :
    sameEngineState (match o with
      | some r => setCatsFor { ctx with configChanged := true } e
          (recordModify (catsFor ctx e) k
            (fun cat => { cat with matchStrings := cat.matchStrings ++ [r] }))
      | none => ctx) ctx := by
  cases o with
  | none => exact sameEngineState_refl ctx
  | some r => exact sameEngineState_dirtyCats ctx e _

theorem zeroMatchPath_ok (ev : String → Int → Int) (rx : String → String → Bool)
    (e0 : ExtendedTransaction) (ctx : Context) (inputs : List String)
    (e2 : ExtendedTransaction) (ctx2 : Context) (rest : List String)
    (h : zeroMatchPath ev rx e0 ctx inputs = Outcome.ok e2 ctx2 rest) :
    sameEngineState ctx2 ctx ∧ e2.Date = e0.Date ∧ e2.Amount = e0.Amount ∧
    e2.Description = e0.Description ∧ e2.metadata = e0.metadata := by
  unfold zeroMatchPath at h
  cases inputs with
  | nil => exact Outcome.noConfusion h
  | cons catName rest0 =>
    try dsimp only [] at h
    cases hg : recordGet (catsFor ctx e0) catName with
    | none =>
      rw [hg] at h
      try dsimp only [] at h
      cases hr : getRegexForDescription rx e0.Description rest0 with
      | none =>
        rw [hr] at h
        exact Outcome.noConfusion h
      | some p =>
        obtain ⟨regex, rest2⟩ := p
        rw [hr] at h
        try dsimp only [] at h
        cases hmb : getReimbursementForTransaction ev { e0 with Category := catName } rest2 with
        | none =>
          rw [hmb] at h
          exact Outcome.noConfusion h
        | some q =>
          obtain ⟨formulaOpt, rest3⟩ := q
          rw [hmb] at h
          try dsimp only [] at h
          cases formulaOpt with
          | none =>
            cases h
            exact ⟨sameEngineState_dirtyCats ctx e0 _, rfl, rfl, rfl, rfl⟩
          | some formula =>
            try dsimp only [] at h
            cases regex with
            | none =>
              dsimp only [Option.isSome] at h
              rw [if_neg (by simp)] at h
              cases h
              exact ⟨sameEngineState_dirtyCats ctx e0 _, rfl, rfl, rfl, rfl⟩
            | some r =>
              dsimp only [Option.isSome] at h
              rw [if_pos rfl] at h
              cases ha : askYesNo rest3 with
              | none =>
                rw [ha] at h
                exact Outcome.noConfusion h
              | some b =>
                obtain ⟨yes, rest4⟩ := b
                rw [ha] at h
                try dsimp only [] at h
                cases yes with
                | true =>
                  cases h
                  exact ⟨sameEngineState_trans (sameEngineState_setCatsFor _ e0 _)
                    (sameEngineState_dirtyCats ctx e0 _), rfl, rfl, rfl, rfl⟩
                | false =>
                  cases h
                  exact ⟨sameEngineState_dirtyCats ctx e0 _, rfl, rfl, rfl, rfl⟩
    | some existing =>
      rw [hg] at h
      try dsimp only [] at h
      cases hr : getRegexForDescription rx e0.Description rest0 with
      | none =>
        rw [hr] at h
        exact Outcome.noConfusion h
      | some p =>
        obtain ⟨regex, rest2⟩ := p
        rw [hr] at h
        try dsimp only [] at h
        have hctx2 := sameEngineState_optionMutate ctx e0 regex catName
        cases hrf : existing.reimbursementFormula with
        | none =>
          rw [hrf] at h
          try dsimp only [] at h
          cases h
          exact ⟨hctx2, rfl, rfl, rfl, rfl⟩
        | some f =>
          rw [hrf] at h
          try dsimp only [] at h
          by_cases hfe : f = ""
          · rw [if_pos hfe] at h
            cases h
            exact ⟨hctx2, rfl, rfl, rfl, rfl⟩
          · rw [if_neg hfe] at h
            cases hv : validateReimbursementForTransaction ev { e0 with Category := catName } f rest2 with
            | none =>
              rw [hv] at h
              exact Outcome.noConfusion h
            | some q =>
              obtain ⟨e3, rest3⟩ := q
              rw [hv] at h
              cases h
              have hfields := validateReimbursement_fields _ _ _ _ _ _ hv
              exact ⟨hctx2, hfields.1, hfields.2.1, hfields.2.2.1, hfields.2.2.2.2⟩

theorem categorise_ok_same (ev : String → Int → Int) (rx : String → String → Bool)
    (input : TxInput) (ctx : Context) (inputs : List String)
    (e2 : ExtendedTransaction) (ctx2 : Context) (rest : List String)
    (h : categoriseTransaction ev rx input ctx inputs = Outcome.ok e2 ctx2 rest) :
    sameEngineState ctx2 ctx ∧ e2.Date = (extBase input).Date ∧
    e2.Amount = (extBase input).Amount ∧ e2.Description = (extBase input).Description ∧
    e2.metadata = (extBase input).metadata := by
  cases input with
  | raw t =>
    unfold categoriseTransaction at h
    dsimp only [] at h
    show sameEngineState ctx2 ctx ∧ e2.Date = (extOfRaw t).Date ∧
      e2.Amount = (extOfRaw t).Amount ∧ e2.Description = (extOfRaw t).Description ∧
      e2.metadata = (extOfRaw t).metadata
    cases hfee : (extOfRaw t).metadata.isIntlTransactionFee with
    | true =>
      rw [hfee, if_pos rfl] at h
      cases h
      exact ⟨sameEngineState_refl ctx, rfl, rfl, rfl, rfl⟩
    | false =>
      rw [hfee, if_neg (by simp)] at h
      cases hm : resolveMultiMatches (collectMatches rx (catsFor ctx (extOfRaw t)) t.Description) inputs with
      | none =>
        rw [hm] at h
        exact Outcome.noConfusion h
      | some p =>
        obtain ⟨ms2, rest2⟩ := p
        rw [hm] at h
        cases ms2 with
        | nil =>
          dsimp only [] at h
          exact zeroMatchPath_ok _ _ _ _ _ _ _ _ h
        | cons c tl =>
          cases tl with
          | nil =>
            dsimp only [] at h
            have hass := assignCategory_ok _ _ _ _ _ _ _ _ h
            exact ⟨hass.1 ▸ sameEngineState_refl ctx, hass.2.1, hass.2.2.1,
              hass.2.2.2.1, hass.2.2.2.2.1⟩
          | cons c2 tl2 =>
            dsimp only [] at h
            cases h
            exact ⟨sameEngineState_refl ctx, rfl, rfl, rfl, rfl⟩
  | ext e =>
    unfold categoriseTransaction at h
    dsimp only [] at h
    show sameEngineState ctx2 ctx ∧ e2.Date = e.Date ∧ e2.Amount = e.Amount ∧
      e2.Description = e.Description ∧ e2.metadata = e.metadata
    by_cases hpre : (¬ e.metadata.isIntlTransactionFee ∨ e.Category ≠ "")
    · rw [if_pos hpre] at h
      exact Outcome.noConfusion h
    · rw [if_neg hpre] at h
      cases hd : dateStoreGet ctx.dateTransactions e.Date with
      | some related =>
        rw [hd] at h
        try dsimp only [] at h
        cases hp : promptChoice (firstDedup (related.map (fun t => t.Category))) inputs with
        | none =>
          rw [hp] at h
          exact Outcome.noConfusion h
        | some p =>
          obtain ⟨input0, rest1⟩ := p
          rw [hp] at h
          try dsimp only [] at h
          by_cases hi : input0 = ""
          · rw [if_pos hi] at h
            exact zeroMatchPath_ok _ _ _ _ _ _ _ _ h
          · rw [if_neg hi] at h
            have := assignCategory_ok _ _ _ _ _ _ _ _ h
            exact ⟨this.1 ▸ sameEngineState_refl ctx, this.2.1, this.2.2.1, this.2.2.2.1, this.2.2.2.2.1⟩
      | none =>
        rw [hd] at h
        try dsimp only [] at h
        exact zeroMatchPath_ok _ _ _ _ _ _ _ _ h

theorem debitRowId_debitRowFor (ev : String → Int → Int) (e : ExtendedTransaction) :
    debitRowId (debitRowFor ev e) = extId e := rfl

theorem creditRowId_creditRowFor (e : ExtendedTransaction) :
    creditRowId (creditRowFor e) = extId e := rfl

theorem extId_eq_of_fields {e : ExtendedTransaction} {t : Transaction}
    (hd : e.Date = t.Date) (ha : e.Amount = t.Amount) (hs : e.Description = t.Description) :
    extId e = transactionId t := by
  unfold extId transactionId
  rw [hd, ha, hs]

theorem addTransaction_raw_fee (ev : String → Int → Int) (rx : String → String → Bool)
    (t : Transaction) (ctx : Context) (inputs : List String)
    (hfee : isIntlFeeDesc t.Description = true) :
    addTransaction ev rx (TxInput.raw t) ctx inputs =
      Outcome.ok ()
        { ctx with intlTransactionFees := ctx.intlTransactionFees ++ [extOfRaw t] } inputs := by
  have hm : (extOfRaw t).metadata.isIntlTransactionFee = true := hfee
  have hcat : categoriseTransaction ev rx (TxInput.raw t) ctx inputs =
      Outcome.ok (extOfRaw t) ctx inputs := by
    unfold categoriseTransaction
    dsimp only []
    rw [hm, if_pos rfl]
  unfold addTransaction
  rw [hcat]
  dsimp only []
  rw [hm]
  rfl

theorem addTransaction_raw_nonfee (ev : String → Int → Int) (rx : String → String → Bool)
    (t : Transaction) (ctx : Context) (inputs : List String) (ctx3 : Context)
    (rest : List String) (hfee : isIntlFeeDesc t.Description = false)
    (h : addTransaction ev rx (TxInput.raw t) ctx inputs = Outcome.ok () ctx3 rest) :
    ∃ d c, ctx3.workbook.debit = ctx.workbook.debit ++ d ∧
      ctx3.workbook.credit = ctx.workbook.credit ++ c ∧
      nonFeeIds d c = [transactionId t] ∧
      (∀ x, x ∈ rowIds ctx3.workbook ↔ x ∈ rowIds ctx.workbook ∨ x = transactionId t) ∧
      (∀ x, x ∈ ctx3.existingTransactions ↔ x ∈ ctx.existingTransactions ∨ x = transactionId t) ∧
      ctx3.intlTransactionFees = ctx.intlTransactionFees := by
  unfold addTransaction at h
  cases hcat : categoriseTransaction ev rx (TxInput.raw t) ctx inputs with
  | blocked => rw [hcat] at h; exact Outcome.noConfusion h
  | thrown m c i => rw [hcat] at h; exact Outcome.noConfusion h
  | ok e ctxm restm =>
    rw [hcat] at h
    dsimp only [] at h
    obtain ⟨hsame, hD, hA, hS, hM⟩ := categorise_ok_same _ _ _ _ _ _ _ _ hcat
    obtain ⟨hwb, hex, hdt, hfees, hda, hca⟩ := hsame
    have hMfee : e.metadata.isIntlTransactionFee = false := by
      rw [hM]; exact hfee
    have hdesc : t.Description ≠ intlTransactionFeeText := by
      simpa [isIntlFeeDesc] using hfee
    rw [hMfee] at h
    simp only [Bool.and_false, Bool.false_eq_true, if_false] at h
    have hid : extId e = transactionId t := extId_eq_of_fields hD hA hS
    cases hdeb : e.metadata.isDebit with
    | true =>
      rw [hdeb] at h
      simp only [if_true] at h
      cases h
      refine ⟨[debitRowFor ev e], [], ?_, ?_, ?_, ?_, ?_, ?_⟩
      · simp [cacheTransaction, addExtendedDebit, hwb]
      · simp [cacheTransaction, addExtendedDebit, hwb]
      · have hthis : (debitRowFor ev e).Description = t.Description := hS
        simp [nonFeeIds, hthis, hdesc, debitRowId_debitRowFor, hid]
      · intro x
        simp only [cacheTransaction, addExtendedDebit, rowIds, hwb, List.map_append,
          List.mem_append, List.map_cons, List.map_nil, List.mem_cons, List.not_mem_nil,
          or_false, debitRowId_debitRowFor, hid]
        tauto
      · intro x
        simp only [cacheTransaction, addExtendedDebit, hex, setAdd_mem, hid]
      · simp [cacheTransaction, addExtendedDebit, hfees]
    | false =>
      rw [hdeb] at h
      simp only [Bool.false_eq_true, if_false] at h
      cases h
      refine ⟨[], [creditRowFor e], ?_, ?_, ?_, ?_, ?_, ?_⟩
      · simp [cacheTransaction, addExtendedCredit, hwb]
      · simp [cacheTransaction, addExtendedCredit, hwb]
      · have hthis : (creditRowFor e).Description = t.Description := hS
        simp [nonFeeIds, hthis, hdesc, creditRowId_creditRowFor, hid]
      · intro x
        simp only [cacheTransaction, addExtendedCredit, rowIds, hwb, List.map_append,
          List.mem_append, List.map_cons, List.map_nil, List.mem_cons, List.not_mem_nil,
          or_false, creditRowId_creditRowFor, hid]
        tauto
      · intro x
        simp only [cacheTransaction, addExtendedCredit, hex, setAdd_mem, hid]
      · simp [cacheTransaction, addExtendedCredit, hfees]

theorem extId_eq_of_fieldsE {e f : ExtendedTransaction}
    (hd : e.Date = f.Date) (ha : e.Amount = f.Amount) (hs : e.Description = f.Description) :
    extId e = extId f := by
  unfold extId
  rw [hd, ha, hs]

theorem addTransaction_ext_fee (ev : String → Int → Int) (rx : String → String → Bool)
    (e : ExtendedTransaction) (ctx : Context) (inputs : List String) (ctx3 : Context)
    (rest : List String) (hfee : e.metadata.isIntlTransactionFee = true)
    (h : addTransaction ev rx (TxInput.ext e) ctx inputs = Outcome.ok () ctx3 rest) :
    ∃ d c, ctx3.workbook.debit = ctx.workbook.debit ++ d ∧
      ctx3.workbook.credit = ctx.workbook.credit ++ c ∧
      (∀ r ∈ d, r.Description = e.Description) ∧
      (∀ r ∈ c, r.Description = e.Description) ∧
      (∀ x, x ∈ rowIds ctx3.workbook ↔ x ∈ rowIds ctx.workbook ∨ x = extId e) ∧
      (∀ x, x ∈ ctx3.existingTransactions ↔ x ∈ ctx.existingTransactions ∨ x = extId e) ∧
      ctx3.intlTransactionFees = ctx.intlTransactionFees ∧
      extId e ∈ rowIds ctx3.workbook := by
  unfold addTransaction at h
  cases hcat : categoriseTransaction ev rx (TxInput.ext e) ctx inputs with
  | blocked => rw [hcat] at h; exact Outcome.noConfusion h
  | thrown m c i => rw [hcat] at h; exact Outcome.noConfusion h
  | ok e2 ctxm restm =>
    rw [hcat] at h
    dsimp only [] at h
    obtain ⟨hsame, hD, hA, hS, hM⟩ := categorise_ok_same _ _ _ _ _ _ _ _ hcat
    obtain ⟨hwb, hex, hdt, hfees, hda, hca⟩ := hsame
    rw [hfee] at h
    simp only [Bool.not_true, Bool.false_and, Bool.false_eq_true, if_false] at h
    have hid : extId e2 = extId e := extId_eq_of_fieldsE hD hA hS
    cases hdeb : e2.metadata.isDebit with
    | true =>
      rw [hdeb] at h
      simp only [if_true] at h
      cases h
      refine ⟨[debitRowFor ev e2], [], ?_, ?_, ?_, ?_, ?_, ?_, ?_, ?_⟩
      · simp [cacheTransaction, addExtendedDebit, hwb]
      · simp [cacheTransaction, addExtendedDebit, hwb]
      · intro r hr
        simp only [List.mem_singleton] at hr
        subst hr
        exact hS
      · intro r hr
        simp at hr
      · intro x
        simp only [cacheTransaction, addExtendedDebit, rowIds, hwb, List.map_append,
          List.mem_append, List.map_cons, List.map_nil, List.mem_cons, List.not_mem_nil,
          or_false, debitRowId_debitRowFor, hid]
        tauto
      · intro x
        simp only [cacheTransaction, addExtendedDebit, hex, setAdd_mem, hid]
      · simp [cacheTransaction, addExtendedDebit, hfees]
      · simp only [cacheTransaction, addExtendedDebit, rowIds, hwb, List.map_append,
          List.mem_append, List.map_cons, List.map_nil, List.mem_cons, List.not_mem_nil,
          or_false, debitRowId_debitRowFor, hid]
        simp
    | false =>
      rw [hdeb] at h
      simp only [Bool.false_eq_true, if_false] at h
      cases h
      refine ⟨[], [creditRowFor e2], ?_, ?_, ?_, ?_, ?_, ?_, ?_, ?_⟩
      · simp [cacheTransaction, addExtendedCredit, hwb]
      · simp [cacheTransaction, addExtendedCredit, hwb]
      · intro r hr
        simp at hr
      · intro r hr
        simp only [List.mem_singleton] at hr
        subst hr
        exact hS
      · intro x
        simp only [cacheTransaction, addExtendedCredit, rowIds, hwb, List.map_append,
          List.mem_append, List.map_cons, List.map_nil, List.mem_cons, List.not_mem_nil,
          or_false, creditRowId_creditRowFor, hid]
        tauto
      · intro x
        simp only [cacheTransaction, addExtendedCredit, hex, setAdd_mem, hid]
      · simp [cacheTransaction, addExtendedCredit, hfees]
      · simp only [cacheTransaction, addExtendedCredit, rowIds, hwb, List.map_append,
          List.mem_append, List.map_cons, List.map_nil, List.mem_cons, List.not_mem_nil,
          or_false, creditRowId_creditRowFor, hid]
        simp

/-- Categorization can append a fee to the withheld set but never removes
from it: the withheld list of the result of addTransaction extends the
one of its argument context. -/
theorem addTransaction_fees_extend (ev : String → Int → Int) (rx : String → String → Bool)
    (input : TxInput) (ctx : Context) (inputs : List String) (ctx3 : Context)
    (rest : List String) (h : addTransaction ev rx input ctx inputs = Outcome.ok () ctx3 rest) :
    ∃ l, ctx3.intlTransactionFees = ctx.intlTransactionFees ++ l := by
  unfold addTransaction at h
  cases hcat : categoriseTransaction ev rx input ctx inputs with
  | blocked => rw [hcat] at h; exact Outcome.noConfusion h
  | thrown m c i => rw [hcat] at h; exact Outcome.noConfusion h
  | ok e2 ctxm restm =>
    rw [hcat] at h
    dsimp only [] at h
    have hfees : ctxm.intlTransactionFees = ctx.intlTransactionFees :=
      (categorise_ok_same _ _ _ _ _ _ _ _ hcat).1.2.2.2.1
    cases input with
    | raw t =>
      dsimp only [] at h
      cases hfe : e2.metadata.isIntlTransactionFee with
      | true =>
        rw [hfe] at h
        simp only [Bool.not_false, Bool.true_and, if_true] at h
        cases h
        exact ⟨[e2], by simp [hfees]⟩
      | false =>
        rw [hfe] at h
        simp only [Bool.and_false, Bool.false_eq_true, if_false] at h
        cases hdeb : e2.metadata.isDebit with
        | true =>
          rw [hdeb] at h
          simp only [if_true] at h
          cases h
          exact ⟨[], by simp [cacheTransaction, addExtendedDebit, hfees]⟩
        | false =>
          rw [hdeb] at h
          simp only [Bool.false_eq_true, if_false] at h
          cases h
          exact ⟨[], by simp [cacheTransaction, addExtendedCredit, hfees]⟩
    | ext e =>
      dsimp only [] at h
      cases hinf : (!e.metadata.isIntlTransactionFee && e2.metadata.isIntlTransactionFee) with
      | true =>
        rw [hinf] at h
        simp only [if_true] at h
        cases h
        exact ⟨[e2], by simp [hfees]⟩
      | false =>
        rw [hinf] at h
        simp only [Bool.false_eq_true, if_false] at h
        cases hdeb : e2.metadata.isDebit with
        | true =>
          rw [hdeb] at h
          simp only [if_true] at h
          cases h
          exact ⟨[], by simp [cacheTransaction, addExtendedDebit, hfees]⟩
        | false =>
          rw [hdeb] at h
          simp only [Bool.false_eq_true, if_false] at h
          cases h
          exact ⟨[], by simp [cacheTransaction, addExtendedCredit, hfees]⟩

/-! ## Claim theorems -/

/-- C10: the identity key is injective on (Date, Amount, Description)
triples: transactionId produces equal strings exactly when the three raw
fields agree, because the numeric components are serialized around ':'
separators and a serialized number never contains ':'. -/
theorem transactionId_injective_iff (t1 t2 : Transaction) :
    transactionId t1 = transactionId t2 ↔
      (t1.Date = t2.Date ∧ t1.Amount = t2.Amount ∧ t1.Description = t2.Description) :=
  transactionIdOf_inj t1.Date t1.Amount t1.Description t2.Date t2.Amount t2.Description

/-- C8: invoking categoriseTransaction with an already-extended
transaction that is not a fee marker or already carries a category throws
immediately, with the context and the input stream exactly as they were:
no categorization or ledger mutation happens first. -/
theorem categorise_ext_precondition_throws (ev : String → Int → Int)
    (rx : String → String → Bool) (e : ExtendedTransaction) (ctx : Context)
    (inputs : List String)
    (h : e.metadata.isIntlTransactionFee = false ∨ e.Category ≠ "") :
    categoriseTransaction ev rx (TxInput.ext e) ctx inputs =
      Outcome.thrown
        "Passed extended transaction with category is that is not an internation transaction fee"
        ctx inputs := by
  have hc : (¬ e.metadata.isIntlTransactionFee ∨ e.Category ≠ "") := by
    rcases h with h | h
    · left
      simp [h]
    · right
      exact h
  unfold categoriseTransaction
  dsimp only []
  rw [if_pos hc]

/-- Witness for C8 at a concrete precondition violation: an extended
transaction that is not a fee marker. -/
theorem categorise_ext_precondition_throws_witness :
    (travelExt.metadata.isIntlTransactionFee = false ∨ travelExt.Category ≠ "") ∧
    categoriseTransaction evK rxEqv (TxInput.ext travelExt) emptyContext [] =
      Outcome.thrown
        "Passed extended transaction with category is that is not an internation transaction fee"
        emptyContext [] :=
  ⟨Or.inl rfl,
   categorise_ext_precondition_throws evK rxEqv travelExt emptyContext [] (Or.inl rfl)⟩

/-- C5: a freshly parsed transaction whose description equals the fee
marker text is returned by categoriseTransaction untouched — no pattern
matching, no prompt, no context change — and addTransaction appends it to
the withheld set without writing it to the ledger; moreover a main-loop
step with no date boundary never removes anything from the withheld set,
so a withheld fee leaves the set only at a date-boundary flush. -/
theorem fee_marker_deferred (ev : String → Int → Int) (rx : String → String → Bool)
    (t : Transaction) (ctx : Context) (inputs : List String)
    (hfee : isIntlFeeDesc t.Description = true) :
    categoriseTransaction ev rx (TxInput.raw t) ctx inputs =
      Outcome.ok (extOfRaw t) ctx inputs
    ∧ addTransaction ev rx (TxInput.raw t) ctx inputs =
        Outcome.ok ()
          { ctx with intlTransactionFees := ctx.intlTransactionFees ++ [extOfRaw t] } inputs
    ∧ (∀ (u : Transaction) (cd : Option Int) (ctxA ctxB : Context)
        (ins rest : List String) (cd2 : Option Int),
        dateDiffers u.Date cd = false →
        processStep ev rx u cd ctxA ins = Outcome.ok cd2 ctxB rest →
        ∃ l, ctxB.intlTransactionFees = ctxA.intlTransactionFees ++ l) := by
  have hm : (extOfRaw t).metadata.isIntlTransactionFee = true := hfee
  refine ⟨?_, addTransaction_raw_fee ev rx t ctx inputs hfee, ?_⟩
  · unfold categoriseTransaction
    dsimp only []
    rw [hm, if_pos rfl]
  · intro u cd ctxA ctxB ins rest cd2 hnb h
    unfold processStep at h
    rw [hnb] at h
    simp only [Bool.false_eq_true, if_false] at h
    by_cases hmem : transactionId u ∈ ctxA.existingTransactions
    · rw [if_pos hmem] at h
      cases h
      exact ⟨[], by simp⟩
    · rw [if_neg hmem] at h
      cases hadd : addTransaction ev rx (TxInput.raw u) ctxA ins with
      | blocked => rw [hadd] at h; exact Outcome.noConfusion h
      | thrown m c i => rw [hadd] at h; exact Outcome.noConfusion h
      | ok unit2 c3 rest2 =>
        cases unit2
        rw [hadd] at h
        dsimp only [] at h
        cases h
        exact addTransaction_fees_extend ev rx (TxInput.raw u) ctxA ins ctxB rest hadd

/-- Witness for C5 at the concrete fee transaction. -/
theorem fee_marker_deferred_witness :
    isIntlFeeDesc feeTx.Description = true ∧
    (categoriseTransaction evK rxEqv (TxInput.raw feeTx) emptyContext [] =
      Outcome.ok (extOfRaw feeTx) emptyContext []
    ∧ addTransaction evK rxEqv (TxInput.raw feeTx) emptyContext [] =
        Outcome.ok ()
          { emptyContext with
            intlTransactionFees := emptyContext.intlTransactionFees ++ [extOfRaw feeTx] } []
    ∧ (∀ (u : Transaction) (cd : Option Int) (ctxA ctxB : Context)
        (ins rest : List String) (cd2 : Option Int),
        dateDiffers u.Date cd = false →
        processStep evK rxEqv u cd ctxA ins = Outcome.ok cd2 ctxB rest →
        ∃ l, ctxB.intlTransactionFees = ctxA.intlTransactionFees ++ l)) :=
  ⟨by decide, fee_marker_deferred evK rxEqv feeTx emptyContext [] (by decide)⟩

/-- C7 evidence: at the zero-match category prompt the engine accepts the
empty string without re-prompting and registers a category whose name is
the empty string (the registry gains an empty-named entry and the dirty
flag is set), contradicting the specified validation. -/
theorem empty_category_name_accepted :
    categoriseTransaction evK rxNone (TxInput.raw plainTx) emptyContext ["", "", ""] =
      Outcome.ok (extOfRaw plainTx)
        { emptyContext with
          config := { emptyConfig with
            debitCategories :=
              [("", { name := "", matchStrings := [], reimbursementFormula := none })] },
          configChanged := true } [] := by
  decide

/-- C3 evidence: a run whose final date carries a withheld fee ends with
the fee still in the withheld set — it is never flushed, never
categorized, and never written to the ledger (the workbook is unchanged
and no row counters moved). -/
theorem trailing_fee_dropped :
    run evK rxEqv emptyConfig emptyWorkbook [[feeTx]] [] =
      Outcome.ok () { emptyContext with intlTransactionFees := [feeExt] } [] := by
  decide

/-- C2 counterexample: in a single run over two fee transactions with
identical (date, amount, description) followed by a later-dated
transaction, both fees are flushed through addTransaction without any
dedup check and the final ledger holds two debit rows with that same
identity triple; the run completes normally. -/
theorem duplicate_fees_both_written :
    run evK rxEqv emptyConfig emptyWorkbook [[feeTx, feeTx, plainTx]]
        ["F", "", "", "F", "G", "", ""] =
      Outcome.ok ()
        (okCtx (run evK rxEqv emptyConfig emptyWorkbook [[feeTx, feeTx, plainTx]]
          ["F", "", "", "F", "G", "", ""])) []
    ∧ ((okCtx (run evK rxEqv emptyConfig emptyWorkbook [[feeTx, feeTx, plainTx]]
          ["F", "", "", "F", "G", "", ""])).workbook.debit.filter
        (fun r => decide (r.Date = feeTx.Date ∧ r.Amount = feeTx.Amount ∧
          r.Description = feeTx.Description))).length = 2 := by
  exact ⟨by decide, by decide⟩

/-- C4 counterexample: a description matched by both patterns of a single
category in its namespace is pushed once per pattern, so the candidate
list has length two and the interactive multiple-match prompt runs: with
no input available the engine blocks, and with the category name as input
it consumes that input — contradicting prompt-free auto-assignment. -/
theorem single_category_two_patterns_prompts :
    categoriseTransaction evK rxAll (TxInput.raw alphaTx)
        (initialContext twoPatConfig emptyWorkbook) [] = Outcome.blocked
    ∧ categoriseTransaction evK rxAll (TxInput.raw alphaTx)
        (initialContext twoPatConfig emptyWorkbook) ["c"] =
      Outcome.ok { extOfRaw alphaTx with Category := "c" }
        (initialContext twoPatConfig emptyWorkbook) [] := by
  exact ⟨by decide, by decide⟩

/-- C4 as amended: when exactly one (category, pattern) pair matches a
fresh non-fee transaction — the candidate list is the singleton [c] — the
category c is assigned with no interactive prompt and no context change;
when c carries a truthy saved reimbursement formula the only further
interaction is the reimbursement confirmation loop. -/
theorem single_pattern_match_auto_assigns (ev : String → Int → Int)
    (rx : String → String → Bool) (t : Transaction) (ctx : Context)
    (inputs : List String) (c : String)
    (hfee : isIntlFeeDesc t.Description = false)
    (hm : collectMatches rx (catsFor ctx (extOfRaw t)) t.Description = [c]) :
    (formulaTruthy ((recordGet (catsFor ctx (extOfRaw t)) c).bind
        (fun cat => cat.reimbursementFormula)) = false →
      categoriseTransaction ev rx (TxInput.raw t) ctx inputs =
        Outcome.ok { extOfRaw t with Category := c } ctx inputs)
    ∧ (∀ f, (recordGet (catsFor ctx (extOfRaw t)) c).bind
        (fun cat => cat.reimbursementFormula) = some f → f ≠ "" →
      categoriseTransaction ev rx (TxInput.raw t) ctx inputs =
        match validateReimbursementForTransaction ev { extOfRaw t with Category := c }
            f inputs with
        | none => Outcome.blocked
        | some (e3, rest) => Outcome.ok e3 ctx rest) := by
  have hmf : (extOfRaw t).metadata.isIntlTransactionFee = false := hfee
  have hres : resolveMultiMatches [c] inputs = some ([c], inputs) := by
    unfold resolveMultiMatches
    simp
  constructor
  · intro hft
    unfold categoriseTransaction
    dsimp only []
    rw [hmf, if_neg (by simp), hm, hres]
    dsimp only []
    unfold assignCategory
    dsimp only []
    cases hb : (recordGet (catsFor ctx (extOfRaw t)) c).bind
        (fun cat => cat.reimbursementFormula) with
    | none => rfl
    | some f =>
      rw [hb] at hft
      have hf0 : f = "" := by simpa [formulaTruthy] using hft
      dsimp only []
      rw [if_pos hf0]
  · intro f hb hne
    unfold categoriseTransaction
    dsimp only []
    rw [hmf, if_neg (by simp), hm, hres]
    dsimp only []
    unfold assignCategory
    dsimp only []
    rw [hb]
    dsimp only []
    rw [if_neg hne]

/-- Witness for the amended C4: the single matching category of the
one-pattern configuration is assigned with no input consumed. -/
theorem single_pattern_match_auto_assigns_witness :
    categoriseTransaction evK rxEqv (TxInput.raw alphaTx)
        (initialContext onePatConfig emptyWorkbook) [] =
      Outcome.ok { extOfRaw alphaTx with Category := "d" }
        (initialContext onePatConfig emptyWorkbook) [] :=
  (single_pattern_match_auto_assigns evK rxEqv alphaTx
    (initialContext onePatConfig emptyWorkbook) [] "d" (by decide) (by decide)).1 (by decide)

/-- C6: when a withheld fee is flushed and the user types one of the
category names recorded for that day, the fee inherits that category and
the context — including both category namespaces and the dirty flag — is
returned exactly unchanged: no entry is created, no pattern is added, the
registry stays clean. -/
theorem fee_attachment_existing_category (ev : String → Int → Int)
    (rx : String → String → Bool) (e : ExtendedTransaction) (ctx : Context)
    (c : String) (rest : List String) (e2 : ExtendedTransaction) (ctx2 : Context)
    (rest2 : List String) (related : List ExtendedTransaction)
    (hfee : e.metadata.isIntlTransactionFee = true) (hcat : e.Category = "")
    (hrel : dateStoreGet ctx.dateTransactions e.Date = some related)
    (hc : c ∈ firstDedup (related.map (fun t => t.Category))) (hcne : c ≠ "")
    (h : categoriseTransaction ev rx (TxInput.ext e) ctx (c :: rest) =
      Outcome.ok e2 ctx2 rest2) :
    ctx2 = ctx ∧ e2.Category = c := by
  unfold categoriseTransaction at h
  dsimp only [] at h
  have hpre : ¬ (¬ e.metadata.isIntlTransactionFee ∨ e.Category ≠ "") := by
    simp [hfee, hcat]
  rw [if_neg hpre, hrel] at h
  dsimp only [] at h
  have hpc : promptChoice (firstDedup (related.map (fun t => t.Category))) (c :: rest) =
      some (c, rest) := by
    unfold promptChoice
    rw [if_pos (Or.inr hc)]
  rw [hpc] at h
  dsimp only [] at h
  rw [if_neg hcne] at h
  have hass := assignCategory_ok _ _ _ _ _ _ _ _ h
  exact ⟨hass.1, hass.2.2.2.2.2⟩

/-- Witness for C6: the fee of the scenario inherits the day's Travel
category with the context unchanged. -/
theorem fee_attachment_existing_category_witness :
    categoriseTransaction evK rxEqv (TxInput.ext feeExt) day1Context ["Travel"] =
      Outcome.ok { feeExt with Category := "Travel" } day1Context []
    ∧ (day1Context = day1Context ∧
        ({ feeExt with Category := "Travel" } : ExtendedTransaction).Category = "Travel") :=
  ⟨by decide,
   fee_attachment_existing_category evK rxEqv feeExt day1Context "Travel" []
     { feeExt with Category := "Travel" } day1Context [] [travelExt] (by decide) (by decide)
     (by decide) (by decide) (by decide) (by decide)⟩

theorem getReimbursementLoop_accepted (st : Option String) (inputs : List String) :
    (∀ s, st = some s → s ≠ "") →
    ∀ g rest, getReimbursementLoop st inputs = some (some g, rest) → g ≠ "" := by
  induction st, inputs using getReimbursementLoop.induct with
  | case1 x =>
    intro _ g rest h
    simp [getReimbursementLoop] at h
  | case2 rest0 =>
    intro _ g rest h
    simp [getReimbursementLoop] at h
  | case3 s rest0 hs ih =>
    intro _ g rest h
    simp only [getReimbursementLoop, if_neg hs] at h
    exact ih (fun s2 hs2 => Option.some.inj hs2 ▸ hs) g rest h
  | case4 f rest0 =>
    intro hst g rest h
    rw [show getReimbursementLoop (some f) ("y" :: rest0) = some (some f, rest0) from rfl] at h
    cases h
    exact hst f rfl
  | case5 f rest0 hny ih =>
    intro _ g rest h
    simp only [getReimbursementLoop, if_neg hny, if_pos rfl] at h
    exact ih (fun s2 hs2 => Option.noConfusion hs2) g rest h
  | case6 f s rest0 hy hn ih =>
    intro hst g rest h
    simp only [getReimbursementLoop, if_neg hy, if_neg hn] at h
    exact ih hst g rest h

theorem validateReimbursementLoop_accepted (confirming : Bool) (f : String)
    (inputs : List String) :
    (confirming = true → f ≠ "") →
    ∀ g rest, validateReimbursementLoop confirming f inputs = some (some g, rest) →
    g ≠ "" := by
  induction confirming, f, inputs using validateReimbursementLoop.induct with
  | case1 confirming f =>
    intro _ g rest h
    rw [show validateReimbursementLoop confirming f [] = none from rfl] at h
    exact Option.noConfusion h
  | case2 f rest0 =>
    intro hf g rest h
    rw [show validateReimbursementLoop true f ("y" :: rest0) = some (some f, rest0) from rfl] at h
    cases h
    exact hf rfl
  | case3 f rest0 hny ih =>
    intro _ g rest h
    rw [show validateReimbursementLoop true f ("n" :: rest0) =
      validateReimbursementLoop false f rest0 from rfl] at h
    exact ih (fun hc => absurd hc (by decide)) g rest h
  | case4 f a rest0 hy hn ih =>
    intro hf g rest h
    have hstep : validateReimbursementLoop true f (a :: rest0) =
        validateReimbursementLoop true f rest0 := by
      conv_lhs => rw [validateReimbursementLoop]
      simp [hy, hn]
    rw [hstep] at h
    exact ih hf g rest h
  | case5 confirming f rest0 hnc =>
    intro _ g rest h
    have hcf : confirming = false := by simpa using hnc
    subst hcf
    rw [show validateReimbursementLoop false f ("" :: rest0) = some (none, rest0) from rfl] at h
    simp at h
  | case6 confirming f a rest0 hnc ha ih =>
    intro _ g rest h
    have hcf : confirming = false := by simpa using hnc
    subst hcf
    have hstep : validateReimbursementLoop false f (a :: rest0) =
        validateReimbursementLoop true a rest0 := by
      conv_lhs => rw [validateReimbursementLoop]
      simp [ha]
    rw [hstep] at h
    exact ih (fun _ => ha) g rest h

/-- C9: a reimbursement-formula prompt aborted by an empty input leaves
the transaction unreimbursed.  For the saved-formula confirmation loop
(validateReimbursementForTransaction, called with a truthy formula) every
normal completion either returns the transaction exactly unchanged — and
rejecting the computed value and then entering an empty formula does
exactly that — or stores a confirmed nonempty formula; the new-formula
prompt (getReimbursementForTransaction) returns no formula on an
immediate empty input and never returns an empty formula, so the caller
leaves Reimbursed at its prior value. -/
theorem reimbursement_empty_input_aborts (ev : String → Int → Int) :
    (∀ (tx : ExtendedTransaction) (f : String) (inputs : List String)
        (tx2 : ExtendedTransaction) (rest : List String), f ≠ "" →
        validateReimbursementForTransaction ev tx f inputs = some (tx2, rest) →
        tx2 = tx ∨ ∃ g, g ≠ "" ∧ tx2 = { tx with Reimbursed := g })
    ∧ (∀ (tx : ExtendedTransaction) (f : String) (rest : List String),
        validateReimbursementForTransaction ev tx f ("n" :: "" :: rest) = some (tx, rest))
    ∧ (∀ (tx : ExtendedTransaction) (rest : List String),
        getReimbursementForTransaction ev tx ("" :: rest) = some (none, rest))
    ∧ (∀ (tx : ExtendedTransaction) (inputs : List String) (r : Option String)
        (rest : List String),
        getReimbursementForTransaction ev tx inputs = some (r, rest) →
        r = none ∨ ∃ g, r = some g ∧ g ≠ "") := by
  refine ⟨?_, ?_, ?_, ?_⟩
  · intro tx f inputs tx2 rest hf h
    unfold validateReimbursementForTransaction at h
    cases hl : validateReimbursementLoop true f inputs with
    | none =>
      rw [hl] at h
      exact Option.noConfusion h
    | some p =>
      obtain ⟨o, r⟩ := p
      rw [hl] at h
      cases o with
      | none =>
        dsimp only [] at h
        simp only [Option.some.injEq, Prod.mk.injEq] at h
        exact Or.inl h.1.symm
      | some g =>
        dsimp only [] at h
        simp only [Option.some.injEq, Prod.mk.injEq] at h
        exact Or.inr ⟨g, validateReimbursementLoop_accepted true f inputs (fun _ => hf) g r hl,
          h.1.symm⟩
  · intro tx f rest
    rfl
  · intro tx rest
    rfl
  · intro tx inputs r rest h
    unfold getReimbursementForTransaction at h
    cases r with
    | none => exact Or.inl rfl
    | some g =>
      exact Or.inr ⟨g, rfl,
        getReimbursementLoop_accepted none inputs (fun s hs => Option.noConfusion hs) g rest h⟩

/-- Witness for C9: rejecting the saved formula and then entering a blank
line returns the transaction unchanged, and a blank line at the
new-formula prompt yields no formula. -/
theorem reimbursement_empty_input_aborts_witness :
    ("amount" ≠ "") ∧
    validateReimbursementForTransaction evK travelExt "amount" ["n", ""] =
      some (travelExt, []) ∧
    (travelExt = travelExt ∨ ∃ g, g ≠ "" ∧ travelExt = { travelExt with Reimbursed := g }) ∧
    getReimbursementForTransaction evK travelExt [""] = some (none, []) :=
  ⟨by decide,
   (reimbursement_empty_input_aborts evK).2.1 travelExt "amount" [],
   (reimbursement_empty_input_aborts evK).1 travelExt "amount" ["n", ""] travelExt []
     (by decide) ((reimbursement_empty_input_aborts evK).2.1 travelExt "amount" []),
   (reimbursement_empty_input_aborts evK).2.2.1 travelExt []⟩

/-! ## Monotonicity and invariant preservation through the run loop -/

theorem workbookExtends_refl (w : Workbook) : workbookExtends w w :=
  ⟨[], [], by simp, by simp⟩

theorem workbookExtends_trans {a b c : Workbook}
    (h1 : workbookExtends a b) (h2 : workbookExtends b c) : workbookExtends a c := by
  obtain ⟨d1, c1, hd1, hc1⟩ := h1
  obtain ⟨d2, c2, hd2, hc2⟩ := h2
  exact ⟨d1 ++ d2, c1 ++ c2, by rw [hd2, hd1, List.append_assoc],
    by rw [hc2, hc1, List.append_assoc]⟩

theorem rowIds_mono {a b : Workbook} (h : workbookExtends a b) :
    ∀ x, x ∈ rowIds a → x ∈ rowIds b := by
  obtain ⟨d, c, hd, hc⟩ := h
  intro x hx
  simp only [rowIds, hd, hc, List.map_append, List.mem_append] at hx ⊢
  tauto

theorem addTransaction_extends (ev : String → Int → Int) (rx : String → String → Bool)
    (input : TxInput) (ctx : Context) (inputs : List String) (ctx3 : Context)
    (rest : List String) (h : addTransaction ev rx input ctx inputs = Outcome.ok () ctx3 rest) :
    workbookExtends ctx.workbook ctx3.workbook ∧
    (∀ x, x ∈ ctx.existingTransactions → x ∈ ctx3.existingTransactions) := by
  unfold addTransaction at h
  cases hcat : categoriseTransaction ev rx input ctx inputs with
  | blocked => rw [hcat] at h; exact Outcome.noConfusion h
  | thrown m c i => rw [hcat] at h; exact Outcome.noConfusion h
  | ok e2 ctxm restm =>
    rw [hcat] at h
    dsimp only [] at h
    obtain ⟨hwb, hex, hdt, hfees, hda, hca⟩ := (categorise_ok_same _ _ _ _ _ _ _ _ hcat).1
    have hwrite : ∀ (h2 : Outcome.ok ()
        (cacheTransaction e2
          (if e2.metadata.isDebit = true then addExtendedDebit ev e2 ctxm
           else addExtendedCredit e2 ctxm)) restm = Outcome.ok () ctx3 rest),
        workbookExtends ctx.workbook ctx3.workbook ∧
        (∀ x, x ∈ ctx.existingTransactions → x ∈ ctx3.existingTransactions) := by
      intro h2
      cases hdeb : e2.metadata.isDebit with
      | true =>
        rw [hdeb] at h2
        simp only [if_true] at h2
        cases h2
        constructor
        · exact ⟨[debitRowFor ev e2], [], by simp [cacheTransaction, addExtendedDebit, hwb],
            by simp [cacheTransaction, addExtendedDebit, hwb]⟩
        · intro x hx
          simp only [cacheTransaction, addExtendedDebit, hex, setAdd_mem]
          exact Or.inl (hex ▸ hx)
      | false =>
        rw [hdeb] at h2
        simp only [Bool.false_eq_true, if_false] at h2
        cases h2
        constructor
        · exact ⟨[], [creditRowFor e2], by simp [cacheTransaction, addExtendedCredit, hwb],
            by simp [cacheTransaction, addExtendedCredit, hwb]⟩
        · intro x hx
          simp only [cacheTransaction, addExtendedCredit, hex, setAdd_mem]
          exact Or.inl (hex ▸ hx)
    cases input with
    | raw t =>
      dsimp only [] at h
      cases hfe : e2.metadata.isIntlTransactionFee with
      | true =>
        rw [hfe] at h
        simp only [Bool.not_false, Bool.true_and, if_true] at h
        cases h
        exact ⟨hwb ▸ workbookExtends_refl ctx.workbook, fun x hx => hex ▸ hx⟩
      | false =>
        rw [hfe] at h
        simp only [Bool.and_false, Bool.false_eq_true, if_false] at h
        exact hwrite h
    | ext e =>
      dsimp only [] at h
      cases hinf : (!e.metadata.isIntlTransactionFee && e2.metadata.isIntlTransactionFee) with
      | true =>
        rw [hinf] at h
        simp only [if_true] at h
        cases h
        exact ⟨hwb ▸ workbookExtends_refl ctx.workbook, fun x hx => hex ▸ hx⟩
      | false =>
        rw [hinf] at h
        simp only [Bool.false_eq_true, if_false] at h
        exact hwrite h

theorem flushFees_spec (ev : String → Int → Int) (rx : String → String → Bool) :
    ∀ (fees : List ExtendedTransaction) (ctx : Context) (inputs : List String)
    (ctx2 : Context) (rest : List String),
    flushFees ev rx fees ctx inputs = Outcome.ok () ctx2 rest →
    (∀ f ∈ fees, f.metadata.isIntlTransactionFee = true) →
    workbookExtends ctx.workbook ctx2.workbook ∧
    (idsOk ctx → idsOk ctx2) ∧
    ctx2.intlTransactionFees = ctx.intlTransactionFees ∧
    (∀ f ∈ fees, extId f ∈ rowIds ctx2.workbook) := by
  intro fees
  induction fees with
  | nil =>
    intro ctx inputs ctx2 rest h _
    cases h
    exact ⟨workbookExtends_refl _, fun hi => hi, rfl, by simp⟩
  | cons fee fees ih =>
    intro ctx inputs ctx2 rest h hf
    unfold flushFees at h
    cases ha : addTransaction ev rx (TxInput.ext fee) ctx inputs with
    | blocked => rw [ha] at h; exact Outcome.noConfusion h
    | thrown m c i => rw [ha] at h; exact Outcome.noConfusion h
    | ok u cm rm =>
      cases u
      rw [ha] at h
      dsimp only [] at h
      obtain ⟨d, c, hd, hc, hdd, hcd, hrow, hexm, hfeesm, hidm⟩ :=
        addTransaction_ext_fee ev rx fee ctx inputs cm rm
          (hf fee (List.mem_cons_self fee fees)) ha
      obtain ⟨hext2, hids2, hfees2, hwrit2⟩ := ih cm rm ctx2 rest h
        (fun f hmem => hf f (List.mem_cons_of_mem fee hmem))
      have hext1 : workbookExtends ctx.workbook cm.workbook := ⟨d, c, hd, hc⟩
      refine ⟨workbookExtends_trans hext1 hext2, ?_, hfees2.trans hfeesm, ?_⟩
      · intro hids
        refine hids2 ?_
        intro x
        rw [hexm x, hrow x, hids x]
      · intro f hmem
        rcases List.mem_cons.mp hmem with rfl | hmem2
        · exact rowIds_mono hext2 _ hidm
        · exact hwrit2 f hmem2

theorem feeText_of_isIntlFeeDesc {d : String} (h : isIntlFeeDesc d = true) :
    d = intlTransactionFeeText := by
  simpa [isIntlFeeDesc] using h

theorem feesOK_withhold {ctx : Context} (t : Transaction) (hfees : feesOK ctx)
    (hfee : isIntlFeeDesc t.Description = true) :
    feesOK { ctx with intlTransactionFees := ctx.intlTransactionFees ++ [extOfRaw t] } := by
  intro f hf
  simp only [List.mem_append, List.mem_singleton] at hf
  rcases hf with hf | rfl
  · exact hfees f hf
  · exact ⟨hfee, rfl, feeText_of_isIntlFeeDesc hfee⟩

theorem processStep_invariants (ev : String → Int → Int) (rx : String → String → Bool)
    (t : Transaction) (cd : Option Int) (ctx : Context) (inputs : List String)
    (cd2 : Option Int) (ctx2 : Context) (rest : List String)
    (h : processStep ev rx t cd ctx inputs = Outcome.ok cd2 ctx2 rest)
    (hids : idsOk ctx) (hfees : feesOK ctx) :
    idsOk ctx2 ∧ feesOK ctx2 ∧ workbookExtends ctx.workbook ctx2.workbook := by
  have hmain : ∀ (ctxa : Context) (cda : Option Int) (ina : List String),
      idsOk ctxa → feesOK ctxa →
      (if transactionId t ∈ ctxa.existingTransactions then Outcome.ok cda ctxa ina
       else match addTransaction ev rx (TxInput.raw t) ctxa ina with
         | Outcome.ok () c3 rest2 => Outcome.ok cda c3 rest2
         | Outcome.thrown m c i => Outcome.thrown m c i
         | Outcome.blocked => Outcome.blocked) = Outcome.ok cd2 ctx2 rest →
      idsOk ctx2 ∧ feesOK ctx2 ∧ workbookExtends ctxa.workbook ctx2.workbook := by
    intro ctxa cda ina hidsa hfeesa h2
    by_cases hmem : transactionId t ∈ ctxa.existingTransactions
    · rw [if_pos hmem] at h2
      cases h2
      exact ⟨hidsa, hfeesa, workbookExtends_refl _⟩
    · rw [if_neg hmem] at h2
      cases hadd : addTransaction ev rx (TxInput.raw t) ctxa ina with
      | blocked => rw [hadd] at h2; exact Outcome.noConfusion h2
      | thrown m c i => rw [hadd] at h2; exact Outcome.noConfusion h2
      | ok u c3 rest2 =>
        cases u
        rw [hadd] at h2
        dsimp only [] at h2
        cases h2
        cases hfe : isIntlFeeDesc t.Description with
        | true =>
          rw [addTransaction_raw_fee ev rx t ctxa ina hfe] at hadd
          cases hadd
          exact ⟨hidsa, feesOK_withhold t hfeesa hfe, workbookExtends_refl _⟩
        | false =>
          obtain ⟨d, c, hd, hc, hnf, hrows, hexist, hfeeseq⟩ :=
            addTransaction_raw_nonfee ev rx t ctxa ina _ _ hfe hadd
          refine ⟨?_, ?_, ⟨d, c, hd, hc⟩⟩
          · intro x
            rw [hexist x, hrows x, hidsa x]
          · intro f hf
            rw [hfeeseq] at hf
            exact hfeesa f hf
  unfold processStep at h
  cases hdd : dateDiffers t.Date cd with
  | false =>
    rw [hdd] at h
    simp only [Bool.false_eq_true, if_false] at h
    try dsimp only [] at h
    exact hmain ctx cd inputs hids hfees h
  | true =>
    rw [hdd] at h
    simp only [if_true] at h
    by_cases hemp : ctx.intlTransactionFees.isEmpty
    · rw [if_pos hemp] at h
      try dsimp only [] at h
      exact hmain ctx (some t.Date) inputs hids hfees h
    · rw [if_neg hemp] at h
      cases hfl : flushFees ev rx ctx.intlTransactionFees ctx inputs with
      | blocked => rw [hfl] at h; exact Outcome.noConfusion h
      | thrown m c i => rw [hfl] at h; exact Outcome.noConfusion h
      | ok u cf rf =>
        cases u
        rw [hfl] at h
        dsimp only [] at h
        obtain ⟨hext, hidsf, hfeq, hwrit⟩ := flushFees_spec ev rx ctx.intlTransactionFees
          ctx inputs cf rf hfl (fun f hf => (hfees f hf).1)
        have hinv : idsOk { cf with intlTransactionFees := [] } := hidsf hids
        have hfinv : feesOK { cf with intlTransactionFees := [] } := by
          intro f hf
          simp at hf
        have hres := hmain { cf with intlTransactionFees := [] } (some t.Date) rf hinv hfinv h
        exact ⟨hres.1, hres.2.1, workbookExtends_trans hext hres.2.2⟩

theorem processTransactions_invariants (ev : String → Int → Int) (rx : String → String → Bool) :
    ∀ (ts : List Transaction) (cd : Option Int) (ctx : Context) (inputs : List String)
    (cd2 : Option Int) (ctx2 : Context) (rest : List String),
    processTransactions ev rx ts cd ctx inputs = Outcome.ok cd2 ctx2 rest →
    idsOk ctx → feesOK ctx →
    idsOk ctx2 ∧ feesOK ctx2 ∧ workbookExtends ctx.workbook ctx2.workbook := by
  intro ts
  induction ts with
  | nil =>
    intro cd ctx inputs cd2 ctx2 rest h hids hfees
    cases h
    exact ⟨hids, hfees, workbookExtends_refl _⟩
  | cons t ts ih =>
    intro cd ctx inputs cd2 ctx2 rest h hids hfees
    unfold processTransactions at h
    cases hs : processStep ev rx t cd ctx inputs with
    | blocked => rw [hs] at h; exact Outcome.noConfusion h
    | thrown m c i => rw [hs] at h; exact Outcome.noConfusion h
    | ok cdm cm rm =>
      rw [hs] at h
      dsimp only [] at h
      obtain ⟨hids1, hfees1, hext1⟩ := processStep_invariants _ _ _ _ _ _ _ _ _ hs hids hfees
      obtain ⟨hids2, hfees2, hext2⟩ := ih cdm cm rm cd2 ctx2 rest h hids1 hfees1
      exact ⟨hids2, hfees2, workbookExtends_trans hext1 hext2⟩

theorem processFile_invariants (ev : String → Int → Int) (rx : String → String → Bool)
    (file : List Transaction) (cd : Option Int) (ctx : Context) (inputs : List String)
    (cd2 : Option Int) (ctx2 : Context) (rest : List String)
    (h : processFile ev rx file cd ctx inputs = Outcome.ok cd2 ctx2 rest)
    (hids : idsOk ctx) (hfees : feesOK ctx) :
    idsOk ctx2 ∧ feesOK ctx2 ∧ workbookExtends ctx.workbook ctx2.workbook := by
  unfold processFile at h
  cases hcd : currentDateFalsy cd with
  | false =>
    rw [hcd] at h
    simp only [Bool.false_eq_true, if_false] at h
    try dsimp only [] at h
    exact processTransactions_invariants ev rx _ _ _ _ _ _ _ h hids hfees
  | true =>
    rw [hcd] at h
    simp only [if_true] at h
    cases hsort : sortByDate file with
    | nil =>
      rw [hsort] at h
      exact Outcome.noConfusion h
    | cons t0 ts0 =>
      rw [hsort] at h
      dsimp only [] at h
      rw [← hsort] at h
      exact processTransactions_invariants ev rx _ _ _ _ _ _ _ h hids hfees

theorem processFiles_invariants (ev : String → Int → Int) (rx : String → String → Bool) :
    ∀ (files : List (List Transaction)) (cd : Option Int) (ctx : Context)
    (inputs : List String) (cd2 : Option Int) (ctx2 : Context) (rest : List String),
    processFiles ev rx files cd ctx inputs = Outcome.ok cd2 ctx2 rest →
    idsOk ctx → feesOK ctx →
    idsOk ctx2 ∧ feesOK ctx2 ∧ workbookExtends ctx.workbook ctx2.workbook := by
  intro files
  induction files with
  | nil =>
    intro cd ctx inputs cd2 ctx2 rest h hids hfees
    cases h
    exact ⟨hids, hfees, workbookExtends_refl _⟩
  | cons f fs ih =>
    intro cd ctx inputs cd2 ctx2 rest h hids hfees
    unfold processFiles at h
    cases hs : processFile ev rx f cd ctx inputs with
    | blocked => rw [hs] at h; exact Outcome.noConfusion h
    | thrown m c i => rw [hs] at h; exact Outcome.noConfusion h
    | ok cdm cm rm =>
      rw [hs] at h
      dsimp only [] at h
      obtain ⟨hids1, hfees1, hext1⟩ := processFile_invariants _ _ _ _ _ _ _ _ _ hs hids hfees
      obtain ⟨hids2, hfees2, hext2⟩ := ih cdm cm rm cd2 ctx2 rest h hids1 hfees1
      exact ⟨hids2, hfees2, workbookExtends_trans hext1 hext2⟩

theorem run2Preserved_refl (a : Context) : run2Preserved a a :=
  ⟨rfl, rfl, rfl, rfl, rfl, rfl, rfl⟩

theorem run2Preserved_trans {a b c : Context}
    (h1 : run2Preserved a b) (h2 : run2Preserved b c) : run2Preserved a c := by
  obtain ⟨x1, x2, x3, x4, x5, x6, x7⟩ := h1
  obtain ⟨y1, y2, y3, y4, y5, y6, y7⟩ := h2
  exact ⟨y1.trans x1, y2.trans x2, y3.trans x3, y4.trans x4, y5.trans x5,
    y6.trans x6, y7.trans x7⟩

theorem sim_main (ev1 ev2 : String → Int → Int) (rx1 rx2 : String → String → Bool)
    (W : List String) (t : Transaction) (cda cdm : Option Int)
    (s1a s2 : Context) (in1a in2 r1 : List String) (s1m : Context)
    (ha1 : (if transactionId t ∈ s1a.existingTransactions then Outcome.ok cda s1a in1a
       else match addTransaction ev1 rx1 (TxInput.raw t) s1a in1a with
         | Outcome.ok () c3 rest2 => Outcome.ok cda c3 rest2
         | Outcome.thrown m c i => Outcome.thrown m c i
         | Outcome.blocked => Outcome.blocked) = Outcome.ok cdm s1m r1)
    (hW : ∀ x, x ∈ rowIds s1m.workbook → x ∈ W)
    (hids : idsOk s1a)
    (hsim1 : ∀ x, x ∈ s2.existingTransactions ↔ x ∈ W)
    (hsim2 : ∀ f ∈ s2.intlTransactionFees,
      extId f ∉ W ∧ ∃ g ∈ s1a.intlTransactionFees, extId g = extId f) :
    cdm = cda ∧
    ∃ s2m, (if transactionId t ∈ s2.existingTransactions then Outcome.ok cda s2 in2
       else match addTransaction ev2 rx2 (TxInput.raw t) s2 in2 with
         | Outcome.ok () c3 rest2 => Outcome.ok cda c3 rest2
         | Outcome.thrown m c i => Outcome.thrown m c i
         | Outcome.blocked => Outcome.blocked) = Outcome.ok cdm s2m in2 ∧
      run2Preserved s2 s2m ∧ simInv W s1m s2m := by
  by_cases hm1 : transactionId t ∈ s1a.existingTransactions
  · rw [if_pos hm1] at ha1
    cases ha1
    refine ⟨rfl, ?_⟩
    by_cases hm2 : transactionId t ∈ s2.existingTransactions
    · exact ⟨s2, by rw [if_pos hm2], run2Preserved_refl s2, hsim1, hsim2⟩
    · exact absurd ((hsim1 _).mpr (hW _ ((hids _).mp hm1))) hm2
  · rw [if_neg hm1] at ha1
    cases hadd : addTransaction ev1 rx1 (TxInput.raw t) s1a in1a with
    | blocked => rw [hadd] at ha1; exact Outcome.noConfusion ha1
    | thrown m c i => rw [hadd] at ha1; exact Outcome.noConfusion ha1
    | ok u c3 r3 =>
      cases u
      rw [hadd] at ha1
      dsimp only [] at ha1
      cases ha1
      refine ⟨rfl, ?_⟩
      cases hfe : isIntlFeeDesc t.Description with
      | true =>
        rw [addTransaction_raw_fee ev1 rx1 t s1a in1a hfe] at hadd
        cases hadd
        by_cases hm2 : transactionId t ∈ s2.existingTransactions
        · refine ⟨s2, by rw [if_pos hm2], run2Preserved_refl s2, hsim1, ?_⟩
          intro f hf
          obtain ⟨hnW, g, hg, hgid⟩ := hsim2 f hf
          exact ⟨hnW, g, by simp only [List.mem_append]; exact Or.inl hg, hgid⟩
        · refine ⟨{ s2 with intlTransactionFees := s2.intlTransactionFees ++ [extOfRaw t] },
            ?_, ⟨rfl, rfl, rfl, rfl, rfl, rfl, rfl⟩, hsim1, ?_⟩
          · rw [if_neg hm2, addTransaction_raw_fee ev2 rx2 t s2 in2 hfe]
          · intro f hf
            simp only [List.mem_append, List.mem_singleton] at hf
            rcases hf with hf | rfl
            · obtain ⟨hnW, g, hg, hgid⟩ := hsim2 f hf
              exact ⟨hnW, g, by simp only [List.mem_append]; exact Or.inl hg, hgid⟩
            · refine ⟨fun hin => hm2 ((hsim1 _).mpr hin), extOfRaw t, ?_, rfl⟩
              simp
      | false =>
        obtain ⟨d, c, hd, hc, hnf, hrows, hexist, hfeeseq⟩ :=
          addTransaction_raw_nonfee ev1 rx1 t s1a in1a _ _ hfe hadd
        have hw : transactionId t ∈ W := hW _ ((hrows _).mpr (Or.inr rfl))
        refine ⟨s2, by rw [if_pos ((hsim1 _).mpr hw)], run2Preserved_refl s2, hsim1, ?_⟩
        intro f hf
        obtain ⟨hnW, g, hg, hgid⟩ := hsim2 f hf
        exact ⟨hnW, g, by rw [hfeeseq]; exact hg, hgid⟩

theorem sim_step (ev1 ev2 : String → Int → Int) (rx1 rx2 : String → String → Bool)
    (W : List String) (t : Transaction) (cd : Option Int) (s1 s2 : Context)
    (in1 in2 r1 : List String) (cdm : Option Int) (s1m : Context)
    (h1 : processStep ev1 rx1 t cd s1 in1 = Outcome.ok cdm s1m r1)
    (hW : ∀ x, x ∈ rowIds s1m.workbook → x ∈ W)
    (hids : idsOk s1) (hfees : feesOK s1) (hsim : simInv W s1 s2) :
    ∃ s2m, processStep ev2 rx2 t cd s2 in2 = Outcome.ok cdm s2m in2 ∧
      run2Preserved s2 s2m ∧ simInv W s1m s2m := by
  have hmext : ∀ (sa : Context) (cda : Option Int) (ina : List String),
      (if transactionId t ∈ sa.existingTransactions then Outcome.ok cda sa ina
       else match addTransaction ev1 rx1 (TxInput.raw t) sa ina with
         | Outcome.ok () c3 rest2 => Outcome.ok cda c3 rest2
         | Outcome.thrown m c i => Outcome.thrown m c i
         | Outcome.blocked => Outcome.blocked) = Outcome.ok cdm s1m r1 →
      workbookExtends sa.workbook s1m.workbook := by
    intro sa cda ina h2
    by_cases hm : transactionId t ∈ sa.existingTransactions
    · rw [if_pos hm] at h2
      cases h2
      exact workbookExtends_refl _
    · rw [if_neg hm] at h2
      cases hadd : addTransaction ev1 rx1 (TxInput.raw t) sa ina with
      | blocked => rw [hadd] at h2; exact Outcome.noConfusion h2
      | thrown m c i => rw [hadd] at h2; exact Outcome.noConfusion h2
      | ok u c3 r3 =>
        cases u
        rw [hadd] at h2
        dsimp only [] at h2
        cases h2
        exact (addTransaction_extends _ _ _ _ _ _ _ hadd).1
  unfold processStep at h1 ⊢
  cases hdd : dateDiffers t.Date cd with
  | false =>
    rw [hdd] at h1
    simp only [Bool.false_eq_true, if_false] at h1 ⊢
    try dsimp only [] at h1
    obtain ⟨hcd, s2m, hgoal, hpres, hsim2⟩ := sim_main ev1 ev2 rx1 rx2 W t cd cdm s1 s2
      in1 in2 r1 s1m h1 hW hids hsim.1 hsim.2
    subst hcd
    exact ⟨s2m, hgoal, hpres, hsim2⟩
  | true =>
    rw [hdd] at h1
    simp only [eq_self_iff_true, if_true] at h1 ⊢
    have hs2nil : s2.intlTransactionFees = [] := by
      cases hs2 : s2.intlTransactionFees with
      | nil => rfl
      | cons f fs =>
        exfalso
        obtain ⟨hnW, g, hg, hgid⟩ := hsim.2 f (by rw [hs2]; exact List.mem_cons_self f fs)
        have hne1 : s1.intlTransactionFees.isEmpty = false := by
          cases hl : s1.intlTransactionFees with
          | nil => rw [hl] at hg; simp at hg
          | cons a l => simp
        rw [hne1] at h1
        simp only [Bool.false_eq_true, if_false] at h1
        cases hfl : flushFees ev1 rx1 s1.intlTransactionFees s1 in1 with
        | blocked => rw [hfl] at h1; exact Outcome.noConfusion h1
        | thrown m c i => rw [hfl] at h1; exact Outcome.noConfusion h1
        | ok u cf rf =>
          cases u
          rw [hfl] at h1
          dsimp only [] at h1
          obtain ⟨hextf, hidsf, hfeqf, hwritf⟩ := flushFees_spec ev1 rx1
            s1.intlTransactionFees s1 in1 cf rf hfl (fun x hx => (hfees x hx).1)
          have hgW : extId g ∈ W :=
            hW _ (rowIds_mono (hmext { cf with intlTransactionFees := [] }
              (some t.Date) rf h1) _ (hwritf g hg))
          exact hnW (hgid ▸ hgW)
    rw [hs2nil]
    simp only [List.isEmpty_nil, if_true]
    cases hne1 : s1.intlTransactionFees.isEmpty with
    | true =>
      rw [hne1] at h1
      simp only [eq_self_iff_true, if_true] at h1
      try dsimp only [] at h1
      try dsimp only []
      obtain ⟨hcd, s2m, hgoal, hpres, hsim2⟩ := sim_main ev1 ev2 rx1 rx2 W t (some t.Date)
        cdm s1 s2 in1 in2 r1 s1m h1 hW hids hsim.1 hsim.2
      subst hcd
      exact ⟨s2m, hgoal, hpres, hsim2⟩
    | false =>
      rw [hne1] at h1
      simp only [Bool.false_eq_true, if_false] at h1
      cases hfl : flushFees ev1 rx1 s1.intlTransactionFees s1 in1 with
      | blocked => rw [hfl] at h1; exact Outcome.noConfusion h1
      | thrown m c i => rw [hfl] at h1; exact Outcome.noConfusion h1
      | ok u cf rf =>
        cases u
        rw [hfl] at h1
        dsimp only [] at h1
        obtain ⟨hextf, hidsf, hfeqf, hwritf⟩ := flushFees_spec ev1 rx1
          s1.intlTransactionFees s1 in1 cf rf hfl (fun x hx => (hfees x hx).1)
        obtain ⟨hcd, s2m, hgoal, hpres, hsim2⟩ := sim_main ev1 ev2 rx1 rx2 W t (some t.Date)
          cdm { cf with intlTransactionFees := [] } s2 rf in2 r1 s1m h1 hW (hidsf hids)
          hsim.1 (by rw [hs2nil]; intro f hf; simp at hf)
        subst hcd
        exact ⟨s2m, hgoal, hpres, hsim2⟩

theorem sim_transactions (ev1 ev2 : String → Int → Int) (rx1 rx2 : String → String → Bool)
    (W : List String) :
    ∀ (ts : List Transaction) (cd : Option Int) (s1 s2 : Context)
    (in1 in2 r1 : List String) (cd1 : Option Int) (s1e : Context),
    processTransactions ev1 rx1 ts cd s1 in1 = Outcome.ok cd1 s1e r1 →
    (∀ x, x ∈ rowIds s1e.workbook → x ∈ W) →
    idsOk s1 → feesOK s1 → simInv W s1 s2 →
    ∃ s2e, processTransactions ev2 rx2 ts cd s2 in2 = Outcome.ok cd1 s2e in2 ∧
      run2Preserved s2 s2e ∧ simInv W s1e s2e := by
  intro ts
  induction ts with
  | nil =>
    intro cd s1 s2 in1 in2 r1 cd1 s1e h hWe hids hfees hsim
    cases h
    exact ⟨s2, rfl, run2Preserved_refl s2, hsim⟩
  | cons t ts ih =>
    intro cd s1 s2 in1 in2 r1 cd1 s1e h hWe hids hfees hsim
    unfold processTransactions at h ⊢
    cases hs : processStep ev1 rx1 t cd s1 in1 with
    | blocked => rw [hs] at h; exact Outcome.noConfusion h
    | thrown m c i => rw [hs] at h; exact Outcome.noConfusion h
    | ok cdm s1m r1m =>
      rw [hs] at h
      dsimp only [] at h
      obtain ⟨hids1, hfees1, -⟩ := processStep_invariants _ _ _ _ _ _ _ _ _ hs hids hfees
      obtain ⟨-, -, hext⟩ :=
        processTransactions_invariants ev1 rx1 ts cdm s1m r1m cd1 s1e r1 h hids1 hfees1
      have hWstep : ∀ x, x ∈ rowIds s1m.workbook → x ∈ W :=
        fun x hx => hWe x (rowIds_mono hext x hx)
      obtain ⟨s2m, hg2, hpres2, hsim2⟩ := sim_step ev1 ev2 rx1 rx2 W t cd s1 s2
        in1 in2 r1m cdm s1m hs hWstep hids hfees hsim
      rw [hg2]
      dsimp only []
      obtain ⟨s2e, hge, hprese, hsime⟩ := ih cdm s1m s2m r1m in2 r1 cd1 s1e h hWe
        hids1 hfees1 hsim2
      exact ⟨s2e, hge, run2Preserved_trans hpres2 hprese, hsime⟩

theorem sim_file (ev1 ev2 : String → Int → Int) (rx1 rx2 : String → String → Bool)
    (W : List String) (file : List Transaction) (cd : Option Int) (s1 s2 : Context)
    (in1 in2 r1 : List String) (cd1 : Option Int) (s1e : Context)
    (h : processFile ev1 rx1 file cd s1 in1 = Outcome.ok cd1 s1e r1)
    (hWe : ∀ x, x ∈ rowIds s1e.workbook → x ∈ W)
    (hids : idsOk s1) (hfees : feesOK s1) (hsim : simInv W s1 s2) :
    ∃ s2e, processFile ev2 rx2 file cd s2 in2 = Outcome.ok cd1 s2e in2 ∧
      run2Preserved s2 s2e ∧ simInv W s1e s2e := by
  unfold processFile at h ⊢
  cases hcd : currentDateFalsy cd with
  | false =>
    rw [hcd] at h
    simp only [Bool.false_eq_true, if_false] at h ⊢
    try dsimp only [] at h
    exact sim_transactions ev1 ev2 rx1 rx2 W _ _ _ _ _ _ _ _ _ h hWe hids hfees hsim
  | true =>
    rw [hcd] at h
    simp only [eq_self_iff_true, if_true] at h ⊢
    cases hsort : sortByDate file with
    | nil =>
      rw [hsort] at h
      exact Outcome.noConfusion h
    | cons t0 ts0 =>
      rw [hsort] at h
      dsimp only [] at h ⊢
      exact sim_transactions ev1 ev2 rx1 rx2 W _ _ _ _ _ _ _ _ _ h hWe hids hfees hsim

theorem sim_files (ev1 ev2 : String → Int → Int) (rx1 rx2 : String → String → Bool)
    (W : List String) :
    ∀ (files : List (List Transaction)) (cd : Option Int) (s1 s2 : Context)
    (in1 in2 r1 : List String) (cd1 : Option Int) (s1e : Context),
    processFiles ev1 rx1 files cd s1 in1 = Outcome.ok cd1 s1e r1 →
    (∀ x, x ∈ rowIds s1e.workbook → x ∈ W) →
    idsOk s1 → feesOK s1 → simInv W s1 s2 →
    ∃ s2e, processFiles ev2 rx2 files cd s2 in2 = Outcome.ok cd1 s2e in2 ∧
      run2Preserved s2 s2e ∧ simInv W s1e s2e := by
  intro files
  induction files with
  | nil =>
    intro cd s1 s2 in1 in2 r1 cd1 s1e h hWe hids hfees hsim
    cases h
    exact ⟨s2, rfl, run2Preserved_refl s2, hsim⟩
  | cons f fs ih =>
    intro cd s1 s2 in1 in2 r1 cd1 s1e h hWe hids hfees hsim
    unfold processFiles at h ⊢
    cases hs : processFile ev1 rx1 f cd s1 in1 with
    | blocked => rw [hs] at h; exact Outcome.noConfusion h
    | thrown m c i => rw [hs] at h; exact Outcome.noConfusion h
    | ok cdm s1m r1m =>
      rw [hs] at h
      dsimp only [] at h
      obtain ⟨hids1, hfees1, -⟩ := processFile_invariants _ _ _ _ _ _ _ _ _ hs hids hfees
      obtain ⟨-, -, hext⟩ :=
        processFiles_invariants ev1 rx1 fs cdm s1m r1m cd1 s1e r1 h hids1 hfees1
      have hWstep : ∀ x, x ∈ rowIds s1m.workbook → x ∈ W :=
        fun x hx => hWe x (rowIds_mono hext x hx)
      obtain ⟨s2m, hg2, hpres2, hsim2⟩ := sim_file ev1 ev2 rx1 rx2 W f cd s1 s2
        in1 in2 r1m cdm s1m hs hWstep hids hfees hsim
      rw [hg2]
      dsimp only []
      obtain ⟨s2e, hge, hprese, hsime⟩ := ih cdm s1m s2m r1m in2 r1 cd1 s1e h hWe
        hids1 hfees1 hsim2
      exact ⟨s2e, hge, run2Preserved_trans hpres2 hprese, hsime⟩

theorem loadDebits_spec : ∀ (rows : List DebitRow) (ctx : Context),
    (rows.foldl (fun c row => cacheTransaction (debitRowToTransaction row) c) ctx).workbook
        = ctx.workbook ∧
    (rows.foldl (fun c row => cacheTransaction (debitRowToTransaction row) c)
        ctx).intlTransactionFees = ctx.intlTransactionFees ∧
    (rows.foldl (fun c row => cacheTransaction (debitRowToTransaction row) c)
        ctx).debitsAdded = ctx.debitsAdded ∧
    (rows.foldl (fun c row => cacheTransaction (debitRowToTransaction row) c)
        ctx).creditsAdded = ctx.creditsAdded ∧
    (∀ x, x ∈ (rows.foldl (fun c row => cacheTransaction (debitRowToTransaction row) c)
        ctx).existingTransactions ↔
      x ∈ ctx.existingTransactions ∨ x ∈ rows.map debitRowId) := by
  intro rows
  induction rows with
  | nil =>
    intro ctx
    exact ⟨rfl, rfl, rfl, rfl, fun x => by simp⟩
  | cons row rows ih =>
    intro ctx
    simp only [List.foldl_cons]
    obtain ⟨h1, h2, h3, h4, h5⟩ := ih (cacheTransaction (debitRowToTransaction row) ctx)
    refine ⟨h1, h2, h3, h4, ?_⟩
    intro x
    rw [h5 x]
    simp only [cacheTransaction, setAdd_mem, List.map_cons, List.mem_cons]
    have hid : extId (debitRowToTransaction row) = debitRowId row := rfl
    rw [hid]
    tauto

theorem loadCredits_spec : ∀ (rows : List CreditRow) (ctx : Context),
    (rows.foldl (fun c row => cacheTransaction (creditRowToTransaction row) c) ctx).workbook
        = ctx.workbook ∧
    (rows.foldl (fun c row => cacheTransaction (creditRowToTransaction row) c)
        ctx).intlTransactionFees = ctx.intlTransactionFees ∧
    (rows.foldl (fun c row => cacheTransaction (creditRowToTransaction row) c)
        ctx).debitsAdded = ctx.debitsAdded ∧
    (rows.foldl (fun c row => cacheTransaction (creditRowToTransaction row) c)
        ctx).creditsAdded = ctx.creditsAdded ∧
    (∀ x, x ∈ (rows.foldl (fun c row => cacheTransaction (creditRowToTransaction row) c)
        ctx).existingTransactions ↔
      x ∈ ctx.existingTransactions ∨ x ∈ rows.map creditRowId) := by
  intro rows
  induction rows with
  | nil =>
    intro ctx
    exact ⟨rfl, rfl, rfl, rfl, fun x => by simp⟩
  | cons row rows ih =>
    intro ctx
    simp only [List.foldl_cons]
    obtain ⟨h1, h2, h3, h4, h5⟩ := ih (cacheTransaction (creditRowToTransaction row) ctx)
    refine ⟨h1, h2, h3, h4, ?_⟩
    intro x
    rw [h5 x]
    simp only [cacheTransaction, setAdd_mem, List.map_cons, List.mem_cons]
    have hid : extId (creditRowToTransaction row) = creditRowId row := rfl
    rw [hid]
    tauto

theorem loadExisting_spec (wb : Workbook) (ctx : Context) :
    (loadExistingTransactions wb ctx).workbook = ctx.workbook ∧
    (loadExistingTransactions wb ctx).intlTransactionFees = ctx.intlTransactionFees ∧
    (loadExistingTransactions wb ctx).debitsAdded = ctx.debitsAdded ∧
    (loadExistingTransactions wb ctx).creditsAdded = ctx.creditsAdded ∧
    (∀ x, x ∈ (loadExistingTransactions wb ctx).existingTransactions ↔
      x ∈ ctx.existingTransactions ∨ x ∈ rowIds wb) := by
  unfold loadExistingTransactions
  dsimp only []
  obtain ⟨d1, d2, d3, d4, d5⟩ := loadDebits_spec wb.debit ctx
  obtain ⟨c1, c2, c3, c4, c5⟩ := loadCredits_spec wb.credit
    (wb.debit.foldl (fun c row => cacheTransaction (debitRowToTransaction row) c) ctx)
  refine ⟨c1.trans d1, c2.trans d2, c3.trans d3, c4.trans d4, ?_⟩
  intro x
  rw [c5 x, d5 x]
  simp only [rowIds, List.mem_append]
  tauto

/-- C1: idempotence of the engine run.  If a run over some statement
files from a starting ledger completes normally, then a second run over
the same files against the persisted resulting ledger — with any
configuration, any pattern and formula semantics, and any available user
input — also completes normally, consumes no user input, adds zero debit
and zero credit rows, and leaves the ledger byte-for-byte unchanged:
every transaction written or already loaded in the first run is rebuilt
into the existing-transactions cache with an identity key identical to
the freshly parsed one and is skipped by the dedup check, and fees the
first run left withheld are withheld again rather than written. -/
theorem run_idempotent (ev1 : String → Int → Int) (rx1 : String → String → Bool)
    (config1 : Config) (wb0 : Workbook) (files : List (List Transaction))
    (in1 : List String) (ctx1 : Context) (r1 : List String)
    (ev2 : String → Int → Int) (rx2 : String → String → Bool) (config2 : Config)
    (in2 : List String)
    (h : run ev1 rx1 config1 wb0 files in1 = Outcome.ok () ctx1 r1) :
    ∃ ctx2, run ev2 rx2 config2 ctx1.workbook files in2 = Outcome.ok () ctx2 in2 ∧
      ctx2.workbook = ctx1.workbook ∧ ctx2.debitsAdded = 0 ∧ ctx2.creditsAdded = 0 := by
  unfold run at h ⊢
  dsimp only [] at h ⊢
  cases hp : processFiles ev1 rx1 files none
      (loadExistingTransactions wb0 (initialContext config1 wb0)) in1 with
  | blocked => rw [hp] at h; exact Outcome.noConfusion h
  | thrown m c i => rw [hp] at h; exact Outcome.noConfusion h
  | ok cd1 s1e r1e =>
    rw [hp] at h
    dsimp only [] at h
    cases h
    obtain ⟨l1w, l1f, l1d, l1c, l1e⟩ :=
      loadExisting_spec wb0 (initialContext config1 wb0)
    obtain ⟨l2w, l2f, l2d, l2c, l2e⟩ :=
      loadExisting_spec ctx1.workbook (initialContext config2 ctx1.workbook)
    have hids1 : idsOk (loadExistingTransactions wb0 (initialContext config1 wb0)) := by
      intro x
      rw [l1e x, l1w]
      simp [initialContext]
    have hfees1 : feesOK (loadExistingTransactions wb0 (initialContext config1 wb0)) := by
      intro f hf
      rw [l1f] at hf
      simp [initialContext] at hf
    have hsim : simInv (rowIds ctx1.workbook)
        (loadExistingTransactions wb0 (initialContext config1 wb0))
        (loadExistingTransactions ctx1.workbook (initialContext config2 ctx1.workbook)) := by
      constructor
      · intro x
        rw [l2e x]
        simp [initialContext]
      · intro f hf
        rw [l2f] at hf
        simp [initialContext] at hf
    obtain ⟨s2e, hg, hpres, -⟩ := sim_files ev1 ev2 rx1 rx2 (rowIds ctx1.workbook) files
      none (loadExistingTransactions wb0 (initialContext config1 wb0))
      (loadExistingTransactions ctx1.workbook (initialContext config2 ctx1.workbook))
      in1 in2 r1 cd1 ctx1 hp (fun x hx => hx) hids1 hfees1 hsim
    refine ⟨s2e, ?_, ?_, ?_, ?_⟩
    · rw [hg]
    · rw [hpres.1, l2w]
      rfl
    · rw [hpres.2.2.1, l2d]
      simp [initialContext]
    · rw [hpres.2.2.2.1, l2c]
      simp [initialContext]

/-- Witness for C1: a concrete first run (single auto-categorized
transaction, no user input) followed by a second run over its resulting
workbook that adds nothing. -/
theorem run_idempotent_witness :
    ∃ ctx2,
      run evK rxAll emptyConfig
          (okCtx (run evK rxEqv onePatConfig emptyWorkbook [[alphaTx]] [])).workbook
          [[alphaTx]] [] = Outcome.ok () ctx2 [] ∧
      ctx2.workbook = (okCtx (run evK rxEqv onePatConfig emptyWorkbook [[alphaTx]] [])).workbook ∧
      ctx2.debitsAdded = 0 ∧ ctx2.creditsAdded = 0 :=
  run_idempotent evK rxEqv onePatConfig emptyWorkbook [[alphaTx]] []
    (okCtx (run evK rxEqv onePatConfig emptyWorkbook [[alphaTx]] [])) []
    evK rxAll emptyConfig [] (by rfl)

theorem perm_middle_swap (a b c d : List String) :
    ((a ++ b) ++ (c ++ d)).Perm ((a ++ c) ++ (b ++ d)) := by
  have h1 : (a ++ b) ++ (c ++ d) = a ++ ((b ++ c) ++ d) := by simp [List.append_assoc]
  have h2 : (a ++ c) ++ (b ++ d) = a ++ ((c ++ b) ++ d) := by simp [List.append_assoc]
  rw [h1, h2]
  exact List.Perm.append_left a (List.perm_append_comm.append_right d)

theorem nonFeeIds_append (D1 D2 : List DebitRow) (C1 C2 : List CreditRow) :
    (nonFeeIds (D1 ++ D2) (C1 ++ C2)).Perm (nonFeeIds D1 C1 ++ nonFeeIds D2 C2) := by
  unfold nonFeeIds
  rw [List.filter_append, List.filter_append, List.map_append, List.map_append]
  exact perm_middle_swap _ _ _ _

theorem nonFeeIds_sub {D : List DebitRow} {C : List CreditRow} {wb wb2 : Workbook}
    (hd : wb2.debit = wb.debit ++ D) (hc : wb2.credit = wb.credit ++ C) :
    ∀ x ∈ nonFeeIds D C, x ∈ rowIds wb2 := by
  intro x hx
  simp only [nonFeeIds, List.mem_append, List.mem_map, List.mem_filter] at hx
  simp only [rowIds, hd, hc, List.map_append, List.mem_append]
  rcases hx with ⟨r, ⟨hr, -⟩, rfl⟩ | ⟨r, ⟨hr, -⟩, rfl⟩
  · exact Or.inl (Or.inr (List.mem_map_of_mem debitRowId hr))
  · exact Or.inr (Or.inr (List.mem_map_of_mem creditRowId hr))

theorem addedOK_refl (wb : Workbook) : addedOK wb wb :=
  ⟨[], [], by simp, by simp, by simp [nonFeeIds], by simp [nonFeeIds]⟩

theorem addedOK_comp {a b c : Workbook} (h1 : addedOK a b) (h2 : addedOK b c) :
    addedOK a c := by
  obtain ⟨D1, C1, h1d, h1c, h1n, h1m⟩ := h1
  obtain ⟨D2, C2, h2d, h2c, h2n, h2m⟩ := h2
  have hperm := nonFeeIds_append D1 D2 C1 C2
  refine ⟨D1 ++ D2, C1 ++ C2, by rw [h2d, h1d, List.append_assoc],
    by rw [h2c, h1c, List.append_assoc], ?_, ?_⟩
  · rw [hperm.nodup_iff]
    refine List.Nodup.append h1n h2n ?_
    intro x hx1 hx2
    exact h2m x hx2 (nonFeeIds_sub h1d h1c x hx1)
  · intro x hx
    rw [hperm.mem_iff] at hx
    rcases List.mem_append.mp hx with hx | hx
    · exact h1m x hx
    · intro hmem
      exact h2m x hx (rowIds_mono ⟨D1, C1, h1d, h1c⟩ x hmem)

theorem flushFees_rows (ev : String → Int → Int) (rx : String → String → Bool) :
    ∀ (fees : List ExtendedTransaction) (ctx : Context) (inputs : List String)
    (cf : Context) (rf : List String),
    flushFees ev rx fees ctx inputs = Outcome.ok () cf rf →
    (∀ f ∈ fees, f.metadata.isIntlTransactionFee = true ∧
      f.Description = intlTransactionFeeText) →
    ∃ D C, cf.workbook.debit = ctx.workbook.debit ++ D ∧
      cf.workbook.credit = ctx.workbook.credit ++ C ∧
      (∀ r ∈ D, r.Description = intlTransactionFeeText) ∧
      (∀ r ∈ C, r.Description = intlTransactionFeeText) := by
  intro fees
  induction fees with
  | nil =>
    intro ctx inputs cf rf h _
    cases h
    exact ⟨[], [], by simp, by simp, by simp, by simp⟩
  | cons fee fees ih =>
    intro ctx inputs cf rf h hf
    unfold flushFees at h
    cases ha : addTransaction ev rx (TxInput.ext fee) ctx inputs with
    | blocked => rw [ha] at h; exact Outcome.noConfusion h
    | thrown m c i => rw [ha] at h; exact Outcome.noConfusion h
    | ok u cm rm =>
      cases u
      rw [ha] at h
      dsimp only [] at h
      obtain ⟨d, c, hd, hc, hdd, hcd, -, -, -, -⟩ :=
        addTransaction_ext_fee ev rx fee ctx inputs cm rm
          (hf fee (List.mem_cons_self fee fees)).1 ha
      obtain ⟨D2, C2, h2d, h2c, h2dd, h2cd⟩ := ih cm rm cf rf h
        (fun f hmem => hf f (List.mem_cons_of_mem fee hmem))
      have hdesc := (hf fee (List.mem_cons_self fee fees)).2
      refine ⟨d ++ D2, c ++ C2, by rw [h2d, hd, List.append_assoc],
        by rw [h2c, hc, List.append_assoc], ?_, ?_⟩
      · intro r hr
        rcases List.mem_append.mp hr with hr | hr
        · exact (hdd r hr).trans hdesc
        · exact h2dd r hr
      · intro r hr
        rcases List.mem_append.mp hr with hr | hr
        · exact (hcd r hr).trans hdesc
        · exact h2cd r hr

theorem nonFeeIds_nil_of_fee {D : List DebitRow} {C : List CreditRow}
    (hd : ∀ r ∈ D, r.Description = intlTransactionFeeText)
    (hc : ∀ r ∈ C, r.Description = intlTransactionFeeText) :
    nonFeeIds D C = [] := by
  unfold nonFeeIds
  rw [List.filter_eq_nil.mpr, List.filter_eq_nil.mpr]
  · simp
  · intro r hr
    simp [hc r hr]
  · intro r hr
    simp [hd r hr]

theorem processStep_added (ev : String → Int → Int) (rx : String → String → Bool)
    (t : Transaction) (cd : Option Int) (ctx : Context) (inputs : List String)
    (cd2 : Option Int) (ctx2 : Context) (rest : List String)
    (h : processStep ev rx t cd ctx inputs = Outcome.ok cd2 ctx2 rest)
    (hids : idsOk ctx) (hfees : feesOK ctx) :
    addedOK ctx.workbook ctx2.workbook := by
  have hmain : ∀ (ctxa : Context) (cda : Option Int) (ina : List String),
      idsOk ctxa →
      (if transactionId t ∈ ctxa.existingTransactions then Outcome.ok cda ctxa ina
       else match addTransaction ev rx (TxInput.raw t) ctxa ina with
         | Outcome.ok () c3 rest2 => Outcome.ok cda c3 rest2
         | Outcome.thrown m c i => Outcome.thrown m c i
         | Outcome.blocked => Outcome.blocked) = Outcome.ok cd2 ctx2 rest →
      addedOK ctxa.workbook ctx2.workbook := by
    intro ctxa cda ina hidsa h2
    by_cases hmem : transactionId t ∈ ctxa.existingTransactions
    · rw [if_pos hmem] at h2
      cases h2
      exact addedOK_refl _
    · rw [if_neg hmem] at h2
      cases hadd : addTransaction ev rx (TxInput.raw t) ctxa ina with
      | blocked => rw [hadd] at h2; exact Outcome.noConfusion h2
      | thrown m c i => rw [hadd] at h2; exact Outcome.noConfusion h2
      | ok u c3 rest2 =>
        cases u
        rw [hadd] at h2
        dsimp only [] at h2
        cases h2
        cases hfe : isIntlFeeDesc t.Description with
        | true =>
          rw [addTransaction_raw_fee ev rx t ctxa ina hfe] at hadd
          cases hadd
          exact addedOK_refl _
        | false =>
          obtain ⟨d, c, hd, hc, hnf, hrows, hexist, hfeeseq⟩ :=
            addTransaction_raw_nonfee ev rx t ctxa ina _ _ hfe hadd
          refine ⟨d, c, hd, hc, ?_, ?_⟩
          · rw [hnf]
            exact List.nodup_singleton _
          · intro x hx
            rw [hnf, List.mem_singleton] at hx
            subst hx
            intro hin
            exact hmem ((hidsa _).mpr hin)
  unfold processStep at h
  cases hdd : dateDiffers t.Date cd with
  | false =>
    rw [hdd] at h
    simp only [Bool.false_eq_true, if_false] at h
    try dsimp only [] at h
    exact hmain ctx cd inputs hids h
  | true =>
    rw [hdd] at h
    simp only [if_true] at h
    by_cases hemp : ctx.intlTransactionFees.isEmpty
    · rw [if_pos hemp] at h
      try dsimp only [] at h
      exact hmain ctx (some t.Date) inputs hids h
    · rw [if_neg hemp] at h
      cases hfl : flushFees ev rx ctx.intlTransactionFees ctx inputs with
      | blocked => rw [hfl] at h; exact Outcome.noConfusion h
      | thrown m c i => rw [hfl] at h; exact Outcome.noConfusion h
      | ok u cf rf =>
        cases u
        rw [hfl] at h
        dsimp only [] at h
        obtain ⟨hext, hidsf, hfeq, hwrit⟩ := flushFees_spec ev rx ctx.intlTransactionFees
          ctx inputs cf rf hfl (fun f hf => (hfees f hf).1)
        obtain ⟨D, C, hD, hC, hDd, hCd⟩ := flushFees_rows ev rx ctx.intlTransactionFees
          ctx inputs cf rf hfl (fun f hf => ⟨(hfees f hf).1, (hfees f hf).2.2⟩)
        have h1 : addedOK ctx.workbook cf.workbook := by
          refine ⟨D, C, hD, hC, ?_, ?_⟩
          · rw [nonFeeIds_nil_of_fee hDd hCd]
            exact List.nodup_nil
          · rw [nonFeeIds_nil_of_fee hDd hCd]
            simp
        have h2 := hmain { cf with intlTransactionFees := [] } (some t.Date) rf
          (hidsf hids) h
        exact addedOK_comp h1 h2

theorem processTransactions_added (ev : String → Int → Int) (rx : String → String → Bool) :
    ∀ (ts : List Transaction) (cd : Option Int) (ctx : Context) (inputs : List String)
    (cd2 : Option Int) (ctx2 : Context) (rest : List String),
    processTransactions ev rx ts cd ctx inputs = Outcome.ok cd2 ctx2 rest →
    idsOk ctx → feesOK ctx → addedOK ctx.workbook ctx2.workbook := by
  intro ts
  induction ts with
  | nil =>
    intro cd ctx inputs cd2 ctx2 rest h _ _
    cases h
    exact addedOK_refl _
  | cons t ts ih =>
    intro cd ctx inputs cd2 ctx2 rest h hids hfees
    unfold processTransactions at h
    cases hs : processStep ev rx t cd ctx inputs with
    | blocked => rw [hs] at h; exact Outcome.noConfusion h
    | thrown m c i => rw [hs] at h; exact Outcome.noConfusion h
    | ok cdm cm rm =>
      rw [hs] at h
      dsimp only [] at h
      obtain ⟨hids1, hfees1, -⟩ := processStep_invariants _ _ _ _ _ _ _ _ _ hs hids hfees
      exact addedOK_comp (processStep_added _ _ _ _ _ _ _ _ _ hs hids hfees)
        (ih cdm cm rm cd2 ctx2 rest h hids1 hfees1)

theorem processFile_added (ev : String → Int → Int) (rx : String → String → Bool)
    (file : List Transaction) (cd : Option Int) (ctx : Context) (inputs : List String)
    (cd2 : Option Int) (ctx2 : Context) (rest : List String)
    (h : processFile ev rx file cd ctx inputs = Outcome.ok cd2 ctx2 rest)
    (hids : idsOk ctx) (hfees : feesOK ctx) :
    addedOK ctx.workbook ctx2.workbook := by
  unfold processFile at h
  cases hcd : currentDateFalsy cd with
  | false =>
    rw [hcd] at h
    simp only [Bool.false_eq_true, if_false] at h
    try dsimp only [] at h
    exact processTransactions_added ev rx _ _ _ _ _ _ _ h hids hfees
  | true =>
    rw [hcd] at h
    simp only [eq_self_iff_true, if_true] at h
    cases hsort : sortByDate file with
    | nil =>
      rw [hsort] at h
      exact Outcome.noConfusion h
    | cons t0 ts0 =>
      rw [hsort] at h
      dsimp only [] at h
      exact processTransactions_added ev rx _ _ _ _ _ _ _ h hids hfees

theorem processFiles_added (ev : String → Int → Int) (rx : String → String → Bool) :
    ∀ (files : List (List Transaction)) (cd : Option Int) (ctx : Context)
    (inputs : List String) (cd2 : Option Int) (ctx2 : Context) (rest : List String),
    processFiles ev rx files cd ctx inputs = Outcome.ok cd2 ctx2 rest →
    idsOk ctx → feesOK ctx → addedOK ctx.workbook ctx2.workbook := by
  intro files
  induction files with
  | nil =>
    intro cd ctx inputs cd2 ctx2 rest h _ _
    cases h
    exact addedOK_refl _
  | cons f fs ih =>
    intro cd ctx inputs cd2 ctx2 rest h hids hfees
    unfold processFiles at h
    cases hs : processFile ev rx f cd ctx inputs with
    | blocked => rw [hs] at h; exact Outcome.noConfusion h
    | thrown m c i => rw [hs] at h; exact Outcome.noConfusion h
    | ok cdm cm rm =>
      rw [hs] at h
      dsimp only [] at h
      obtain ⟨hids1, hfees1, -⟩ := processFile_invariants _ _ _ _ _ _ _ _ _ hs hids hfees
      exact addedOK_comp (processFile_added _ _ _ _ _ _ _ _ _ hs hids hfees)
        (ih cdm cm rm cd2 ctx2 rest h hids1 hfees1)

/-- C2 as amended: in any normally completing run, among the rows the run
appended to the two sheets, those whose description is not the fee marker
text carry pairwise distinct identity keys, none of which occurs in the
starting workbook — for non-fee transactions only the first of any
identical group is ever written.  (Identical fee markers are each written
at flush time, as the counterexample shows.) -/
theorem run_nonfee_rows_distinct (ev : String → Int → Int) (rx : String → String → Bool)
    (config : Config) (wb0 : Workbook) (files : List (List Transaction))
    (inputs : List String) (ctx : Context) (rest : List String)
    (h : run ev rx config wb0 files inputs = Outcome.ok () ctx rest) :
    ∃ D C, ctx.workbook.debit = wb0.debit ++ D ∧ ctx.workbook.credit = wb0.credit ++ C ∧
      (nonFeeIds D C).Nodup ∧ (∀ x ∈ nonFeeIds D C, x ∉ rowIds wb0) := by
  unfold run at h
  dsimp only [] at h
  cases hp : processFiles ev rx files none
      (loadExistingTransactions wb0 (initialContext config wb0)) inputs with
  | blocked => rw [hp] at h; exact Outcome.noConfusion h
  | thrown m c i => rw [hp] at h; exact Outcome.noConfusion h
  | ok cd1 s1e r1e =>
    rw [hp] at h
    dsimp only [] at h
    cases h
    obtain ⟨lw, lf, ld, lc, le⟩ := loadExisting_spec wb0 (initialContext config wb0)
    have hids0 : idsOk (loadExistingTransactions wb0 (initialContext config wb0)) := by
      intro x
      rw [le x, lw]
      simp [initialContext]
    have hfees0 : feesOK (loadExistingTransactions wb0 (initialContext config wb0)) := by
      intro f hf
      rw [lf] at hf
      simp [initialContext] at hf
    have hadded := processFiles_added ev rx files none
      (loadExistingTransactions wb0 (initialContext config wb0)) inputs cd1 ctx rest hp
      hids0 hfees0
    rw [lw] at hadded
    exact hadded

/-- Witness for the amended C2 at a concrete completing run. -/
theorem run_nonfee_rows_distinct_witness :
    ∃ D C,
      (okCtx (run evK rxEqv onePatConfig emptyWorkbook [[alphaTx]] [])).workbook.debit =
        emptyWorkbook.debit ++ D ∧
      (okCtx (run evK rxEqv onePatConfig emptyWorkbook [[alphaTx]] [])).workbook.credit =
        emptyWorkbook.credit ++ C ∧
      (nonFeeIds D C).Nodup ∧ (∀ x ∈ nonFeeIds D C, x ∉ rowIds emptyWorkbook) :=
  run_nonfee_rows_distinct evK rxEqv onePatConfig emptyWorkbook [[alphaTx]] []
    (okCtx (run evK rxEqv onePatConfig emptyWorkbook [[alphaTx]] [])) [] (by rfl)
